import Mathlib

/-!
Verification of the schema-resolution core (`SchemaResolver`) of the
swagger-json-mcp repository.

The document model is a shallow embedding of parsed JSON values as they
exist in the JavaScript runtime.  Field lists of `Json.obj` are taken in
the JavaScript enumeration order of the object's own enumerable keys, so
iteration (`Object.keys` / `Object.entries`) is modelled as walking the
list from the front.  `resolveSchemaRecursive` and `extractDependencies`
are recursive with no structural bound in the source, so they are
embedded with an explicit fuel argument; running out of fuel yields
`none`.  A thrown JavaScript exception is modelled as `Except.error`.
-/

inductive Json where
  | null : Json
  | bool : Bool → Json
  | num : Int → Json
  | str : String → Json
  | arr : List Json → Json
  | obj : List (String × Json) → Json

namespace SwaggerMcp

/-- JavaScript truthiness of a JSON value. -/
def truthy : Json → Bool
  | Json.null => false
  | Json.bool b => b
  | Json.num n => n != 0
  | Json.str s => s ≠ ""
  | Json.arr _ => true
  | Json.obj _ => true

/-- First-match lookup in an object's field list (JS own-property access). -/
def lookupField : List (String × Json) → String → Option Json
  | [], _ => none
  | (k, v) :: rest, key => if k = key then some v else lookupField rest key

/-- Does a string consist only of decimal digits with no leading zero
(the canonical form of a JavaScript array index)? -/
def isCanonicalIndex (s : String) : Bool :=
  match s.data with
  | [] => false
  | [c] => c.isDigit
  | c :: rest => c.isDigit && c ≠ '0' && rest.all Char.isDigit

/-- Parse a canonical array-index string. -/
def parseIndex (s : String) : Option Nat :=
  if isCanonicalIndex s then some (s.toNat!) else none

/-- JavaScript property read `value[key]`, returning `none` for `undefined`.
Objects use own-property lookup; arrays expose their elements under
canonical index strings and their length under `"length"`; strings expose
their characters under index strings and their length.  Reads on other
primitives give `undefined`; reads on `null` are modelled at call sites
(they throw in JavaScript). -/
def jsGet : Json → String → Option Json
  | Json.obj fields, key => lookupField fields key
  | Json.arr xs, key =>
      if key = "length" then some (Json.num xs.length)
      else match parseIndex key with
        | some i => xs.get? i
        | none => none
  | Json.str s, key =>
      if key = "length" then some (Json.num s.length)
      else match parseIndex key with
        | some i => (s.data.get? i).map (fun c => Json.str (String.mk [c]))
        | none => none
  | _, _ => none

/-- `jsGet` restricted to a truthy result: models `value[key]` used in a
boolean position (`if (x.k)`). -/
def truthyField (j : Json) (key : String) : Option Json :=
  match jsGet j key with
  | some v => if truthy v then some v else none
  | none => none

/-- The character for one decimal digit. -/
def digitChar (d : Nat) : Char :=
  if d = 0 then '0' else if d = 1 then '1' else if d = 2 then '2'
  else if d = 3 then '3' else if d = 4 then '4' else if d = 5 then '5'
  else if d = 6 then '6' else if d = 7 then '7' else if d = 8 then '8' else '9'

/-- Decimal digit characters of a natural number, most significant first
(auxiliary, with fuel; `fuel = n + 1` always suffices). -/
def natDigits : Nat → Nat → List Char
  | 0, _ => []
  | fuel + 1, n =>
      if n < 10 then [digitChar n]
      else natDigits fuel (n / 10) ++ [digitChar (n % 10)]

/-- Decimal rendering of a natural number (JS number-to-string for the
integer values used by the resolver). -/
def natStr (n : Nat) : String := String.mk (natDigits (n + 1) n)

/-- JS `Object.entries` (own enumerable string-keyed properties). -/
def indexedFields (i : Nat) : List Json → List (String × Json)
  | [] => []
  | x :: rest => (natStr i, x) :: indexedFields (i + 1) rest

def jsEntries : Json → List (String × Json)
  | Json.obj fields => fields
  | Json.arr xs => indexedFields 0 xs
  | Json.str s => indexedFields 0 (s.data.map (fun c => Json.str (String.mk [c])))
  | _ => []

/-- JS `Object.keys`. -/
def jsKeys (j : Json) : List String := (jsEntries j).map Prod.fst

/-- Replace the value of the first occurrence of a key in a field list,
appending when absent (JS assignment `obj[k] = v`; assignment to an
existing key keeps its position). -/
def putField : List (String × Json) → String → Json → List (String × Json)
  | [], key, v => [(key, v)]
  | (k, w) :: rest, key, v =>
      if k = key then (key, v) :: rest else (k, w) :: putField rest key v

/-- Is the value JavaScript `null` (property reads on it throw)? -/
def isNull : Json → Bool
  | Json.null => true
  | _ => false

/- ### Pointer codec (`decodeJsonPointer` / `encodeJsonPointer`) -/

/-- One global pass of `replace(/~1/g, '/')`: left-to-right,
non-overlapping. -/
def replaceT1 : List Char → List Char
  | [] => []
  | [c] => [c]
  | c1 :: c2 :: rest =>
      if c1 = '~' ∧ c2 = '1' then '/' :: replaceT1 rest
      else c1 :: replaceT1 (c2 :: rest)

/-- One global pass of `replace(/~0/g, '~')`. -/
def replaceT0 : List Char → List Char
  | [] => []
  | [c] => [c]
  | c1 :: c2 :: rest =>
      if c1 = '~' ∧ c2 = '0' then '~' :: replaceT0 rest
      else c1 :: replaceT0 (c2 :: rest)

/-- RFC 6901 decoding as implemented: `~1 → /` first, then `~0 → ~`. -/
def decodeJsonPointer (s : String) : String :=
  String.mk (replaceT0 (replaceT1 s.data))

/-- One global pass of `replace(/~/g, '~0')`. -/
def replaceTilde : List Char → List Char
  | [] => []
  | c :: rest =>
      if c = '~' then '~' :: '0' :: replaceTilde rest
      else c :: replaceTilde rest

/-- One global pass of `replace(/\//g, '~1')`. -/
def replaceSlash : List Char → List Char
  | [] => []
  | c :: rest =>
      if c = '/' then '~' :: '1' :: replaceSlash rest
      else c :: replaceSlash rest

/-- RFC 6901 encoding as implemented: `~ → ~0` first, then `/ → ~1`. -/
def encodeJsonPointer (s : String) : String :=
  String.mk (replaceSlash (replaceTilde s.data))

/-- JS `String.prototype.split('/')`; never returns the empty list. -/
def splitSlashChars : List Char → List (List Char)
  | [] => [[]]
  | c :: rest =>
      if c = '/' then [] :: splitSlashChars rest
      else
        match splitSlashChars rest with
        | h :: t => (c :: h) :: t
        | [] => [[c]]

def jsSplitSlash (s : String) : List String :=
  (splitSlashChars s.data).map String.mk

/-- Is `pat` a contiguous substring of `s` (JS `String.prototype.includes`)? -/
def charsHasPrefix : List Char → List Char → Bool
  | [], _ => true
  | _ :: _, [] => false
  | p :: ps, c :: cs => p = c && charsHasPrefix ps cs

def charsIncludes (pat : List Char) : List Char → Bool
  | [] => charsHasPrefix pat []
  | c :: cs => charsHasPrefix pat (c :: cs) || charsIncludes pat cs

def jsIncludes (s pat : String) : Bool := charsIncludes pat.data s.data

/-- Does the string start with `#/`? -/
def startsWithHashSlash (s : String) : Bool :=
  match s.data with
  | '#' :: '/' :: _ => true
  | _ => false

/-- `ref.substring(2)`. -/
def dropTwo (s : String) : String := String.mk (s.data.drop 2)

/-- `extractSchemaName`: decoded last `/`-separated segment. -/
def extractSchemaName (ref : String) : String :=
  decodeJsonPointer ((jsSplitSlash ref).getLastD "")

/- ### `resolveRef` -/

/-- The placeholder object substituted for a dangling reference. -/
def placeholder (ref : String) : Json :=
  Json.obj [("$ref", Json.str ref),
            ("$unresolved", Json.bool true),
            ("$error", Json.str ("Reference not found: " ++ ref))]

/-- Is the current node traversable for pointer walking
(`current && typeof current === 'object'`)?  In JS both objects and
arrays have `typeof === 'object'`; `null` does too but fails the
truthiness guard. -/
def traversable : Json → Bool
  | Json.obj _ => true
  | Json.arr _ => true
  | _ => false

def refWalk (ref : String) : List String → Json → Except String Json
  | [], current => Except.ok current
  | seg :: rest, current =>
      let decoded := decodeJsonPointer seg
      if traversable current then
        match jsGet current decoded with
        | some next => refWalk ref rest next
        | none =>
            if jsIncludes ref "/invalid/" then
              Except.error ("Invalid $ref path: " ++ ref)
            else Except.ok (placeholder ref)
      else
        if jsIncludes ref "/invalid/" then
          Except.error ("Invalid $ref path: " ++ ref)
        else Except.ok (placeholder ref)

/-- `resolveRef`: resolve a `#/`-rooted JSON pointer against the document.
A malformed prefix throws; a missing target yields the placeholder value,
except that pointers containing `/invalid/` throw. -/
def resolveRef (doc : Json) (ref : String) : Except String Json :=
  if startsWithHashSlash ref then
    refWalk ref (jsSplitSlash (dropTwo ref)) doc
  else Except.error "Invalid $ref format: must start with #/"

/-- Pure segment walk: the node a segment list denotes, if every segment
resolves.  Used only to state properties of `resolveRef`. -/
def walkPure : List String → Json → Option Json
  | [], cur => some cur
  | seg :: rest, cur =>
      if traversable cur then
        match jsGet cur (decodeJsonPointer seg) with
        | some next => walkPure rest next
        | none => none
      else none

/-- Pure lookup: the node a pointer denotes, if every segment resolves. -/
def pointerTarget (doc : Json) (ref : String) : Option Json :=
  if startsWithHashSlash ref then walkPure (jsSplitSlash (dropTwo ref)) doc
  else none

/- ### Result type, cache, generic string maps -/

structure ResolveResult where
  success : Bool
  schema : Option Json
  dependencies : List String
  circularReferences : List String
  error : Option Json

def mapGet {α : Type} : List (String × α) → String → Option α
  | [], _ => none
  | (k, v) :: rest, key => if k = key then some v else mapGet rest key

/-- JS map/object assignment: overwrite in place, else append. -/
def mapPut {α : Type} : List (String × α) → String → α → List (String × α)
  | [], key, v => [(key, v)]
  | (k, w) :: rest, key, v =>
      if k = key then (key, v) :: rest else (k, w) :: mapPut rest key v

/-- JS object spread-and-replace `{...j, key: v}` for object values (the
source only spreads values it has just checked to be objects). -/
def setFieldJs (j : Json) (key : String) (v : Json) : Json :=
  match j with
  | Json.obj fields => Json.obj (putField fields key v)
  | other => other

abbrev Cache := List (String × ResolveResult)

/-- `[...new Set(xs)]`: deduplicate keeping first occurrences. -/
def dedupFirstAux : List String → List String → List String
  | _, [] => []
  | seen, x :: rest =>
      if seen.contains x then dedupFirstAux seen rest
      else x :: dedupFirstAux (seen ++ [x]) rest

def dedupFirst (xs : List String) : List String := dedupFirstAux [] xs

structure ResolveOptions where
  maxDepth : Nat
  includeCircular : Bool

/-- The default options destructured at the top of both resolve entry
points (`maxDepth = 10`, `includeCircular = true`). -/
def defaultOptions : ResolveOptions := ⟨10, true⟩

/-- `` `${target}-${maxDepth}-${includeCircular}` ``. -/
def cacheKey (target : String) (o : ResolveOptions) : String :=
  target ++ "-" ++ natStr o.maxDepth ++ "-" ++
    (if o.includeCircular then "true" else "false")

def failResult (e : Json) : ResolveResult := ⟨false, none, [], [], some e⟩

/- ### Schema locator (`scanAllSchemas`) and `components?.schemas` access -/

/-- Optional chain `doc[k1]?.[k2]`. -/
def optChain2 (doc : Json) (k1 k2 : String) : Option Json :=
  match jsGet doc k1 with
  | some c => jsGet c k2
  | none => none

/-- `this.document.components?.schemas?.[name]`. -/
def schemaAt (doc : Json) (name : String) : Option Json :=
  match optChain2 doc "components" "schemas" with
  | some cs => jsGet cs name
  | none => none

/-- `scanAllSchemas`: index `components/schemas` (OpenAPI 3.x) first, then
`definitions` (Swagger 2.x); each key is registered by plain assignment. -/
def scanAllSchemas (doc : Json) : List (String × String) :=
  let m0 : List (String × String) := []
  let m1 :=
    match optChain2 doc "components" "schemas" with
    | some cs =>
        if truthy cs then
          (jsKeys cs).foldl
            (fun m n => mapPut m n ("components/schemas/" ++ encodeJsonPointer n)) m0
        else m0
    | none => m0
  match jsGet doc "definitions" with
  | some ds =>
      if truthy ds then
        (jsKeys ds).foldl
          (fun m n => mapPut m n ("definitions/" ++ encodeJsonPointer n)) m1
      else m1
  | none => m1

/- ### The reference expander (`resolveSchemaRecursive`), fueled -/

/-- Sequential resolution of an entries list (the `for (const [key, prop]
of Object.entries(schema.properties))` loop), threading the dependency and
circular-reference accumulators. -/
def fieldsFold
    (rec : Json → List String → List String →
      Option (Except String (Json × List String × List String))) :
    List (String × Json) → List String → List String →
    Option (Except String (List (String × Json) × List String × List String))
  | [], deps, circ => some (Except.ok ([], deps, circ))
  | (k, v) :: rest, deps, circ =>
      match rec v deps circ with
      | none => none
      | some (Except.error e) => some (Except.error e)
      | some (Except.ok (v', deps', circ')) =>
          match fieldsFold rec rest deps' circ' with
          | none => none
          | some (Except.error e) => some (Except.error e)
          | some (Except.ok (fs, d, c)) => some (Except.ok ((k, v') :: fs, d, c))

/-- `resolveSchemaRecursive(schema, currentDepth, maxDepth, dependencies,
circularReferences)` with the instance field `currentPath` threaded as the
`path` argument (it is pushed before and popped after each reference
descent, so the caller's list is unchanged).  `none` means out of fuel. -/
def resolveSchemaRecursive (doc : Json) :
    Nat → Json → Nat → Nat → List String → List String → List String →
    Option (Except String (Json × List String × List String))
  | 0, _, _, _, _, _, _ => none
  | fuel + 1, schema, currentDepth, maxDepth, path, deps, circ =>
    if isNull schema then some (Except.error "TypeError: Cannot read properties of null")
    else
      match truthyField schema "$ref" with
      | some (Json.str r) =>
          let refName := extractSchemaName r
          let deps := deps ++ [refName]
          if currentDepth ≥ maxDepth then some (Except.ok (schema, deps, circ))
          else if path.contains refName then
            some (Except.ok (schema, deps,
              circ ++ [String.intercalate " -> " (path ++ [refName])]))
          else
            match resolveRef doc r with
            | Except.error e => some (Except.error e)
            | Except.ok target =>
                resolveSchemaRecursive doc fuel target (currentDepth + 1) maxDepth
                  (path ++ [refName]) deps circ
      | some _ => some (Except.error "TypeError: ref.split is not a function")
      | none =>
        match jsGet schema "type", truthyField schema "properties" with
        | some (Json.str "object"), some props =>
            match fieldsFold
                (fun v d c => resolveSchemaRecursive doc fuel v currentDepth maxDepth path d c)
                (jsEntries props) deps circ with
            | none => none
            | some (Except.error e) => some (Except.error e)
            | some (Except.ok (newFields, d, c)) =>
                some (Except.ok (setFieldJs schema "properties" (Json.obj newFields), d, c))
        | _, _ =>
          match jsGet schema "type", truthyField schema "items" with
          | some (Json.str "array"), some items =>
              match resolveSchemaRecursive doc fuel items currentDepth maxDepth path deps circ with
              | none => none
              | some (Except.error e) => some (Except.error e)
              | some (Except.ok (items', d, c)) =>
                  some (Except.ok (setFieldJs schema "items" items', d, c))
          | _, _ => some (Except.ok (schema, deps, circ))

/- ### Public entry points with the result cache -/

/-- `resolveSchemaByRef(ref, options)`.  The `try`/`catch` of the source is
the propagation of `Except.error` into a failure result. -/
def resolveSchemaByRef (doc : Json) (fuel : Nat) (cache : Cache) (ref : String)
    (opts : ResolveOptions) : Option (ResolveResult × Cache) :=
  let key := cacheKey ref opts
  match mapGet cache key with
  | some r => some (r, cache)
  | none =>
    match resolveRef doc ref with
    | Except.error e =>
        let r := failResult (Json.str e)
        some (r, mapPut cache key r)
    | Except.ok schema =>
      if isNull schema then
        let r := failResult (Json.str "TypeError: Cannot read properties of null")
        some (r, mapPut cache key r)
      else
        match truthyField schema "$unresolved" with
        | some _ =>
            let e := match truthyField schema "$error" with
                     | some v => v
                     | none => Json.str ("Reference \"" ++ ref ++ "\" not found")
            let r := failResult e
            some (r, mapPut cache key r)
        | none =>
            match resolveSchemaRecursive doc fuel schema 0 opts.maxDepth []
                [extractSchemaName ref] [] with
            | none => none
            | some (Except.error e) =>
                let r := failResult (Json.str e)
                some (r, mapPut cache key r)
            | some (Except.ok (resolved, deps, circ)) =>
                let r : ResolveResult :=
                  ⟨true, some resolved, dedupFirst deps, dedupFirst circ, none⟩
                some (r, mapPut cache key r)

/-- `resolveSchema(schemaName, options)`. -/
def resolveSchema (doc : Json) (fuel : Nat) (cache : Cache) (schemaName : String)
    (opts : ResolveOptions) : Option (ResolveResult × Cache) :=
  let key := cacheKey schemaName opts
  match mapGet cache key with
  | some r => some (r, cache)
  | none =>
    match mapGet (scanAllSchemas doc) schemaName with
    | some p =>
        if p = "" then
          let r := failResult
            (Json.str ("Schema \"" ++ schemaName ++ "\" not found in any location"))
          some (r, mapPut cache key r)
        else resolveSchemaByRef doc fuel cache ("#/" ++ p) opts
    | none =>
        let r := failResult
          (Json.str ("Schema \"" ++ schemaName ++ "\" not found in any location"))
        some (r, mapPut cache key r)

/- ### Dependency extractor (`getDependencies` / `extractDependencies`) -/

/-- Sequential extraction over `Object.values(schema.properties)`. -/
def depsFold
    (rec : Json → List String → List String →
      Option (Except String (List String × List String))) :
    List Json → List String → List String →
    Option (Except String (List String × List String))
  | [], deps, visited => some (Except.ok (deps, visited))
  | v :: rest, deps, visited =>
      match rec v deps visited with
      | none => none
      | some (Except.error e) => some (Except.error e)
      | some (Except.ok (d, vis)) => depsFold rec rest d vis

/-- `extractDependencies(schema, dependencies, visited)`. -/
def extractDependencies (doc : Json) :
    Nat → Json → List String → List String →
    Option (Except String (List String × List String))
  | 0, _, _, _ => none
  | fuel + 1, schema, deps, visited =>
    if isNull schema then some (Except.error "TypeError: Cannot read properties of null")
    else
      match truthyField schema "$ref" with
      | some (Json.str r) =>
          let refName := extractSchemaName r
          if visited.contains refName then some (Except.ok (deps, visited))
          else
            let deps := deps ++ [refName]
            let visited := visited ++ [refName]
            match schemaAt doc refName with
            | some s' =>
                if truthy s' then extractDependencies doc fuel s' deps visited
                else some (Except.ok (deps, visited))
            | none => some (Except.ok (deps, visited))
      | some _ => some (Except.error "TypeError: ref.split is not a function")
      | none =>
        match jsGet schema "type", truthyField schema "properties" with
        | some (Json.str "object"), some props =>
            depsFold (fun v d vis => extractDependencies doc fuel v d vis)
              ((jsEntries props).map Prod.snd) deps visited
        | _, _ =>
          match jsGet schema "type", truthyField schema "items" with
          | some (Json.str "array"), some items =>
              extractDependencies doc fuel items deps visited
          | _, _ => some (Except.ok (deps, visited))

/-- `getDependencies(schemaName)`: consults only `components.schemas`. -/
def getDependencies (doc : Json) (fuel : Nat) (schemaName : String) :
    Option (Except String (List String)) :=
  match schemaAt doc schemaName with
  | none => some (Except.ok [])
  | some s =>
      if truthy s then
        match extractDependencies doc fuel s [] [] with
        | none => none
        | some (Except.error e) => some (Except.error e)
        | some (Except.ok (deps, _)) => some (Except.ok (dedupFirst deps))
      else some (Except.ok [])

/- ### Specification-side notions used to state the claims -/

/-- No node anywhere in the tree carries a `$ref` key. -/
def noRefKey : Json → Bool
  | Json.obj [] => true
  | Json.obj ((k, v) :: fs) =>
      decide (k ≠ "$ref") && noRefKey v && noRefKey (Json.obj fs)
  | Json.arr [] => true
  | Json.arr (x :: xs) => noRefKey x && noRefKey (Json.arr xs)
  | _ => true

/-- The reference graph reachable from a subtree, along the traversal the
expander performs, is fully expandable: every reference node carries a
string pointer whose target exists, reference chains never revisit a name
on the active branch (acyclicity) and never exceed the depth bound, and
all parts of the tree the expander copies verbatim are free of `$ref`
keys.  This is the hypothesis "acyclic reference graph of reference-hop
depth ≤ maxDepth, with all references resolvable". -/
inductive Expands (doc : Json) (maxDepth : Nat) : Json → List String → Nat → Prop where
  | ref (schema : Json) (path : List String) (depth : Nat) (r : String) (target : Json)
      (hr : truthyField schema "$ref" = some (Json.str r))
      (hnull : isNull schema = false)
      (hd : depth < maxDepth)
      (hp : path.contains (extractSchemaName r) = false)
      (ht : resolveRef doc r = Except.ok target)
      (hrec : Expands doc maxDepth target (path ++ [extractSchemaName r]) (depth + 1)) :
      Expands doc maxDepth schema path depth
  | objProps (fields : List (String × Json)) (props : Json)
      (path : List String) (depth : Nat)
      (htype : jsGet (Json.obj fields) "type" = some (Json.str "object"))
      (hprops : truthyField (Json.obj fields) "properties" = some props)
      (hkeys : ∀ kv ∈ fields, kv.1 ≠ "$ref")
      (hnodup : (fields.map Prod.fst).Nodup)
      (hothers : ∀ kv ∈ fields, kv.1 ≠ "properties" → noRefKey kv.2 = true)
      (hek : ∀ kv ∈ jsEntries props, kv.1 ≠ "$ref")
      (hentries : ∀ kv ∈ jsEntries props, Expands doc maxDepth kv.2 path depth) :
      Expands doc maxDepth (Json.obj fields) path depth
  | arrItems (fields : List (String × Json)) (items : Json)
      (path : List String) (depth : Nat)
      (htype : jsGet (Json.obj fields) "type" = some (Json.str "array"))
      (hitems : truthyField (Json.obj fields) "items" = some items)
      (hkeys : ∀ kv ∈ fields, kv.1 ≠ "$ref")
      (hnodup : (fields.map Prod.fst).Nodup)
      (hothers : ∀ kv ∈ fields, kv.1 ≠ "items" → noRefKey kv.2 = true)
      (hrec : Expands doc maxDepth items path depth) :
      Expands doc maxDepth (Json.obj fields) path depth
  | plain (schema : Json) (path : List String) (depth : Nat)
      (h : noRefKey schema = true) :
      Expands doc maxDepth schema path depth

mutual
/-- Relation between a subtree and its expansion at `maxDepth = 0`: every
reference node is returned unchanged while its name is collected; the
traversal descends through `properties` / `items` without following any
reference.  Mirrors the depth-0 behaviour of the expander on inputs free
of type errors. -/
inductive ZeroExpand : Json → Json → List String → Type where
  | refz (schema : Json) (r : String)
      (hr : truthyField schema "$ref" = some (Json.str r))
      (hnull : isNull schema = false) :
      ZeroExpand schema schema [extractSchemaName r]
  | objz (fields : List (String × Json)) (props : Json)
      (outFields : List (String × Json)) (names : List String)
      (hr : truthyField (Json.obj fields) "$ref" = none)
      (ht : jsGet (Json.obj fields) "type" = some (Json.str "object"))
      (hp : truthyField (Json.obj fields) "properties" = some props)
      (hz : ZeroExpandFields (jsEntries props) outFields names) :
      ZeroExpand (Json.obj fields)
        (setFieldJs (Json.obj fields) "properties" (Json.obj outFields)) names
  | arrz (fields : List (String × Json)) (items out : Json) (names : List String)
      (hr : truthyField (Json.obj fields) "$ref" = none)
      (ht : jsGet (Json.obj fields) "type" = some (Json.str "array"))
      (hi : truthyField (Json.obj fields) "items" = some items)
      (hz : ZeroExpand items out names) :
      ZeroExpand (Json.obj fields) (setFieldJs (Json.obj fields) "items" out) names
  | plainz (schema : Json)
      (hnull : isNull schema = false)
      (hr : truthyField schema "$ref" = none)
      (hno : ¬ (jsGet schema "type" = some (Json.str "object") ∧
        (truthyField schema "properties").isSome))
      (hna : ¬ (jsGet schema "type" = some (Json.str "array") ∧
        (truthyField schema "items").isSome)) :
      ZeroExpand schema schema []

/-- Pointwise `ZeroExpand` over an entries list, concatenating names. -/
inductive ZeroExpandFields : List (String × Json) → List (String × Json) → List String → Type where
  | nilz : ZeroExpandFields [] [] []
  | consz (k : String) (v out : Json) (ns : List String)
      (rest outRest : List (String × Json)) (nsRest : List String)
      (h : ZeroExpand v out ns) (hrest : ZeroExpandFields rest outRest nsRest) :
      ZeroExpandFields ((k, v) :: rest) ((k, out) :: outRest) (ns ++ nsRest)
end

/- ### Concrete example documents -/

/-- The same schema name in both containers. -/
def collisionDoc : Json := Json.obj [
  ("components", Json.obj [("schemas",
    Json.obj [("A", Json.obj [("type", Json.str "string")])])]),
  ("definitions", Json.obj [("A", Json.obj [("type", Json.str "number")])])]

/-- A schema present only in the legacy `definitions` container. -/
def legacyDoc : Json := Json.obj [
  ("definitions", Json.obj [("A", Json.obj [("type", Json.str "string")])])]

/-- A two-schema reference cycle `A → B → A`. -/
def cycleDoc : Json := Json.obj [
  ("components", Json.obj [("schemas", Json.obj [
    ("A", Json.obj [("$ref", Json.str "#/components/schemas/B")]),
    ("B", Json.obj [("$ref", Json.str "#/components/schemas/A")])])])]

/-- An acyclic chain `User → Profile → Settings`. -/
def chainDoc : Json := Json.obj [
  ("components", Json.obj [("schemas", Json.obj [
    ("User", Json.obj [("type", Json.str "object"), ("properties", Json.obj [
      ("p", Json.obj [("$ref", Json.str "#/components/schemas/Profile")])])]),
    ("Profile", Json.obj [("type", Json.str "object"), ("properties", Json.obj [
      ("s", Json.obj [("$ref", Json.str "#/components/schemas/Settings")])])]),
    ("Settings", Json.obj [("type", Json.str "string")])])])]

/-- A schema with one dangling reference and one plain sibling. -/
def danglingDoc : Json := Json.obj [
  ("components", Json.obj [("schemas", Json.obj [
    ("A", Json.obj [("type", Json.str "object"), ("properties", Json.obj [
      ("x", Json.obj [("$ref", Json.str "#/components/schemas/Missing")]),
      ("y", Json.obj [("type", Json.str "string")])])])])])]

/- ### Generic lemmas: string-keyed maps, dedup -/

theorem mapGet_mapPut_self {α : Type} (m : List (String × α)) (k : String) (v : α) :
    mapGet (mapPut m k v) k = some v := by
  induction m with
  | nil => simp [mapPut, mapGet]
  | cons kv rest ih =>
      obtain ⟨k', w⟩ := kv
      by_cases h : k' = k
      · subst h; simp [mapPut, mapGet]
      · simp [mapPut, mapGet, h, ih]

theorem mapGet_mapPut_ne {α : Type} (m : List (String × α)) (k k' : String) (v : α)
    (h : k ≠ k') : mapGet (mapPut m k v) k' = mapGet m k' := by
  induction m with
  | nil => simp [mapPut, mapGet, h]
  | cons kv rest ih =>
      obtain ⟨k0, w⟩ := kv
      by_cases h0 : k0 = k
      · subst h0; simp [mapPut, mapGet, h]
      · simp [mapPut, mapGet, h0, ih]

theorem mapGet_foldl_put_not_mem {α : Type} (f : String → α) (keys : List String)
    (m0 : List (String × α)) (name : String) (h : name ∉ keys) :
    mapGet (keys.foldl (fun m n => mapPut m n (f n)) m0) name = mapGet m0 name := by
  induction keys generalizing m0 with
  | nil => rfl
  | cons k rest ih =>
      simp only [List.foldl_cons]
      rw [ih _ (fun hm => h (List.mem_cons_of_mem _ hm)),
        mapGet_mapPut_ne _ _ _ _ (fun he => by subst he; exact h (List.mem_cons_self _ _))]

theorem mapGet_foldl_put_mem {α : Type} (f : String → α) (keys : List String)
    (m0 : List (String × α)) (name : String) (h : name ∈ keys) :
    mapGet (keys.foldl (fun m n => mapPut m n (f n)) m0) name = some (f name) := by
  induction keys generalizing m0 with
  | nil => cases h
  | cons k rest ih =>
      simp only [List.foldl_cons]
      by_cases hr : name ∈ rest
      · exact ih _ hr
      · have hk : name = k := by
          rcases List.mem_cons.mp h with h' | h'
          · exact h'
          · exact absurd h' hr
        subst hk
        rw [mapGet_foldl_put_not_mem _ _ _ _ hr, mapGet_mapPut_self]

theorem mapGet_foldl_put_val {α : Type} (f : String → α) (keys : List String)
    (m0 : List (String × α)) (name : String) (v : α)
    (h : mapGet (keys.foldl (fun m n => mapPut m n (f n)) m0) name = some v) :
    v = f name ∨ mapGet m0 name = some v := by
  induction keys generalizing m0 with
  | nil => exact Or.inr h
  | cons k rest ih =>
      simp only [List.foldl_cons] at h
      rcases ih _ h with hv | hv
      · exact Or.inl hv
      · by_cases hk : k = name
        · subst hk; rw [mapGet_mapPut_self] at hv
          exact Or.inl (by injection hv with h'; exact h'.symm)
        · rw [mapGet_mapPut_ne _ _ _ _ hk] at hv
          exact Or.inr hv

theorem mem_dedupFirstAux_not_seen (xs : List String) :
    ∀ seen x, x ∈ dedupFirstAux seen xs → seen.contains x = false := by
  induction xs with
  | nil => intro seen x hx; cases hx
  | cons y rest ih =>
      intro seen x hx
      by_cases hy : seen.contains y
      · rw [dedupFirstAux, if_pos hy] at hx
        exact ih seen x hx
      · rw [dedupFirstAux, if_neg hy] at hx
        rcases List.mem_cons.mp hx with h | h
        · subst h; exact Bool.eq_false_iff.mpr hy
        · have hc := ih (seen ++ [y]) x h
          simp only [List.contains, List.elem_eq_mem, List.mem_append,
            decide_eq_false_iff_not, not_or] at hc
          simp only [List.contains, List.elem_eq_mem, decide_eq_false_iff_not]
          exact hc.1

theorem dedupFirstAux_nodup (xs : List String) : ∀ seen, (dedupFirstAux seen xs).Nodup := by
  induction xs with
  | nil => intro seen; exact List.nodup_nil
  | cons y rest ih =>
      intro seen
      by_cases hy : seen.contains y
      · rw [dedupFirstAux, if_pos hy]; exact ih seen
      · rw [dedupFirstAux, if_neg hy]
        refine List.nodup_cons.mpr ⟨fun hm => ?_, ih _⟩
        have hc := mem_dedupFirstAux_not_seen rest (seen ++ [y]) y hm
        simp [List.contains, List.elem_eq_mem] at hc

theorem dedupFirst_nodup (xs : List String) : (dedupFirst xs).Nodup :=
  dedupFirstAux_nodup xs []

theorem dedupFirst_cons (x : String) (xs : List String) :
    dedupFirst (x :: xs) = x :: dedupFirstAux [x] xs := by
  simp [dedupFirst, dedupFirstAux]

/- ### C1: container precedence in the schema index -/

/-- C1, counterexample: in a document whose `components/schemas` and
`definitions` containers both hold the name `A`, the index built by
`scanAllSchemas` maps `A` to the pointer of the container scanned *last*
(`definitions/A`), not the one scanned first, contradicting the claim
that the first container wins and is never overwritten. -/
theorem C1_counterexample :
    (schemaAt collisionDoc "A").isSome = true ∧
    ((jsGet collisionDoc "definitions").bind (fun d => jsGet d "A")).isSome = true ∧
    mapGet (scanAllSchemas collisionDoc) "A" =
      some ("definitions/" ++ encodeJsonPointer "A") ∧
    ¬ mapGet (scanAllSchemas collisionDoc) "A" =
      some ("components/schemas/" ++ encodeJsonPointer "A") :=
  ⟨rfl, rfl, by decide, by decide⟩

/-- C1, amended: on a name collision between the two containers the
container scanned last wins — the `definitions` (legacy) registration
overwrites the `components/schemas` one, so `scanAllSchemas` maps the
name to the legacy pointer. -/
theorem C1_last_container_wins (doc cs ds : Json) (name : String)
    (hcs : optChain2 doc "components" "schemas" = some cs) (htc : truthy cs = true)
    (hmc : name ∈ jsKeys cs)
    (hds : jsGet doc "definitions" = some ds) (htd : truthy ds = true)
    (hmd : name ∈ jsKeys ds) :
    mapGet (scanAllSchemas doc) name =
      some ("definitions/" ++ encodeJsonPointer name) := by
  unfold scanAllSchemas
  rw [hcs, hds]
  dsimp only
  rw [htc, htd]
  simp only [if_true]
  exact mapGet_foldl_put_mem _ _ _ _ hmd

/-- C1 witness: the amended statement applied to the collision document. -/
theorem C1_last_container_wins_witness :
    mapGet (scanAllSchemas collisionDoc) "A" =
      some ("definitions/" ++ encodeJsonPointer "A") :=
  C1_last_container_wins collisionDoc
    (Json.obj [("A", Json.obj [("type", Json.str "string")])])
    (Json.obj [("A", Json.obj [("type", Json.str "number")])])
    "A" rfl rfl (by decide) rfl rfl (by decide)

/- ### C4: dependency extraction and the root name -/

/-- C4, counterexample: in the two-schema cycle `A → B → A`,
`getDependencies "A"` returns `["B", "A"]`, which contains the root name
`A`, contradicting the claim that the root is always excluded. -/
theorem C4_counterexample :
    getDependencies cycleDoc 10 "A" = some (Except.ok ["B", "A"]) ∧
    "A" ∈ ["B", "A"] :=
  ⟨rfl, by decide⟩

/-- C4, amended: `getDependencies` returns a sequence of unique schema
names, but it does not unconditionally exclude the root: when the
reference graph cycles back to the root (as in `A → B → A`), the root
name appears in the result. -/
theorem C4_unique_dependencies :
    (∀ (doc : Json) (fuel : Nat) (name : String) (l : List String),
        getDependencies doc fuel name = some (Except.ok l) → l.Nodup) ∧
    getDependencies cycleDoc 10 "A" = some (Except.ok ["B", "A"]) := by
  refine ⟨fun doc fuel name l h => ?_, rfl⟩
  unfold getDependencies at h
  rcases hs : schemaAt doc name with _ | s <;> rw [hs] at h <;> dsimp only at h
  · injection h with h'; injection h' with h''
    exact h'' ▸ List.nodup_nil
  · by_cases ht : truthy s
    · rw [if_pos ht] at h
      rcases he : extractDependencies doc fuel s [] [] with _ | e <;> rw [he] at h
      · cases h
      · rcases e with e | dv
        · cases h
        · injection h with h'; injection h' with h''
          exact h'' ▸ dedupFirst_nodup dv.1
    · rw [if_neg ht] at h
      injection h with h'; injection h' with h''
      exact h'' ▸ List.nodup_nil

/-- C4 witness: the amended statement applied to the cycle document. -/
theorem C4_unique_dependencies_witness :
    List.Nodup ["B", "A"] ∧ getDependencies cycleDoc 10 "A" = some (Except.ok ["B", "A"]) :=
  ⟨C4_unique_dependencies.1 cycleDoc 10 "A" ["B", "A"] C4_unique_dependencies.2,
    C4_unique_dependencies.2⟩

/- ### C3: cache consistency -/

/-- Resolving by pointer from an empty cache stores exactly one entry,
under the pointer's own key. -/
theorem byRef_empty_cache_shape (doc : Json) (fuel : Nat) (ref : String)
    (opts : ResolveOptions) (r : ResolveResult) (c : Cache)
    (h : resolveSchemaByRef doc fuel [] ref opts = some (r, c)) :
    c = [(cacheKey ref opts, r)] := by
  unfold resolveSchemaByRef at h
  simp only [mapGet] at h
  split at h
  · -- resolveRef threw
    simp only [Option.some.injEq, Prod.mk.injEq] at h
    exact h.2.symm.trans (by rw [h.1]; rfl)
  · split at h
    · -- null target
      simp only [Option.some.injEq, Prod.mk.injEq] at h
      exact h.2.symm.trans (by rw [h.1]; rfl)
    · split at h
      · -- unresolved root
        simp only [Option.some.injEq, Prod.mk.injEq] at h
        exact h.2.symm.trans (by rw [h.1]; rfl)
      · split at h
        · exact absurd h (by simp)
        · simp only [Option.some.injEq, Prod.mk.injEq] at h
          exact h.2.symm.trans (by rw [h.1]; rfl)
        · simp only [Option.some.injEq, Prod.mk.injEq] at h
          exact h.2.symm.trans (by rw [h.1]; rfl)

/-- C3, counterexample: the cache keys of name requests and pointer
requests live in one string keyspace.  After `resolveSchemaByRef` on
`#/definitions/A`, the *name* request `resolveSchema "#/definitions/A"`
hits that cache entry and returns the successful pointer result, while a
fresh computation of the same name request fails with "Schema not found":
a cache hit that is not structurally equal to the fresh computation. -/
theorem C3_counterexample :
    ∃ (r1 rHit rFresh : ResolveResult) (c1 cF : Cache),
      resolveSchemaByRef legacyDoc 10 [] "#/definitions/A" defaultOptions = some (r1, c1) ∧
      resolveSchema legacyDoc 10 c1 "#/definitions/A" defaultOptions = some (rHit, c1) ∧
      mapGet c1 (cacheKey "#/definitions/A" defaultOptions) = some rHit ∧
      resolveSchema legacyDoc 10 [] "#/definitions/A" defaultOptions = some (rFresh, cF) ∧
      rHit.success = true ∧ rFresh.success = false :=
  ⟨_, _, _, _, _, rfl, rfl, rfl, rfl, rfl, rfl⟩

/-- C3, amended: within one request kind the cache is consistent —
repeating the same request (same target string, same options, same
request kind) against the unchanged document returns the result of the
first computation.  The stronger claim fails only when a name request
aliases a previously cached pointer request's key. -/
theorem C3_cache_idempotent :
    (∀ (doc : Json) (fuel : Nat) (name : String) (opts : ResolveOptions)
        (r : ResolveResult) (c : Cache),
      resolveSchema doc fuel [] name opts = some (r, c) →
      resolveSchema doc fuel c name opts = some (r, c)) ∧
    (∀ (doc : Json) (fuel : Nat) (ref : String) (opts : ResolveOptions)
        (r : ResolveResult) (c : Cache),
      resolveSchemaByRef doc fuel [] ref opts = some (r, c) →
      resolveSchemaByRef doc fuel c ref opts = some (r, c)) := by
  have hByRef : ∀ (doc : Json) (fuel : Nat) (ref : String) (opts : ResolveOptions)
      (r : ResolveResult) (c : Cache),
      resolveSchemaByRef doc fuel [] ref opts = some (r, c) →
      resolveSchemaByRef doc fuel c ref opts = some (r, c) := by
    intro doc fuel ref opts r c h
    have hc := byRef_empty_cache_shape doc fuel ref opts r c h
    subst hc
    unfold resolveSchemaByRef
    simp [mapGet]
  refine ⟨?_, hByRef⟩
  intro doc fuel name opts r c h
  unfold resolveSchema at h
  simp only [mapGet] at h
  rcases hs : mapGet (scanAllSchemas doc) name with _ | p <;> rw [hs] at h <;>
    dsimp only at h
  · simp only [Option.some.injEq, Prod.mk.injEq] at h
    obtain ⟨hr, hcc⟩ := h
    unfold resolveSchema
    rw [← hcc, ← hr]
    simp [mapGet_mapPut_self]
  · by_cases hp : p = ""
    · rw [if_pos hp] at h
      simp only [Option.some.injEq, Prod.mk.injEq] at h
      obtain ⟨hr, hcc⟩ := h
      unfold resolveSchema
      rw [← hcc, ← hr]
      simp [mapGet_mapPut_self]
    · rw [if_neg hp] at h
      have hc := byRef_empty_cache_shape doc fuel _ opts r c h
      by_cases hkey : cacheKey ("#/" ++ p) opts = cacheKey name opts
      · unfold resolveSchema
        rw [hc, ← hkey]
        simp [mapGet]
      · unfold resolveSchema
        rw [hc]
        simp only [mapGet, if_neg hkey]
        rw [hs]
        dsimp only
        rw [if_neg hp, ← hc]
        exact hByRef doc fuel _ opts r c h

/-- C3 witness: repeating the cycle-document name request returns the
cached first result. -/
theorem C3_cache_idempotent_witness :
    ∃ (r : ResolveResult) (c : Cache),
      resolveSchema cycleDoc 10 [] "A" defaultOptions = some (r, c) ∧
      resolveSchema cycleDoc 10 c "A" defaultOptions = some (r, c) :=
  ⟨_, _, rfl, C3_cache_idempotent.1 cycleDoc 10 "A" defaultOptions _ _ rfl⟩

/- ### String lemmas: encoding round trip, splitting -/

theorem replaceSlash_no_slash (l : List Char) : '/' ∉ replaceSlash l := by
  induction l with
  | nil => simp [replaceSlash]
  | cons c rest ih =>
      by_cases h : c = '/'
      · subst h
        rw [replaceSlash, if_pos rfl]
        intro hm
        rcases List.mem_cons.mp hm with h' | h'
        · exact absurd h' (by decide)
        · rcases List.mem_cons.mp h' with h'' | h''
          · exact absurd h'' (by decide)
          · exact ih h''
      · rw [replaceSlash, if_neg h]
        intro hm
        rcases List.mem_cons.mp hm with h' | h'
        · exact h h'.symm
        · exact ih h'

theorem encode_no_slash (s : String) : '/' ∉ (encodeJsonPointer s).data :=
  replaceSlash_no_slash _

theorem replaceT1_cons_ne (c : Char) (h : ¬ c = '~') (V : List Char) :
    replaceT1 (c :: V) = c :: replaceT1 V := by
  cases V with
  | nil => rfl
  | cons v vs =>
      rw [replaceT1, if_neg (fun hh => h hh.1)]

theorem replaceT0_cons_ne (c : Char) (h : ¬ c = '~') (V : List Char) :
    replaceT0 (c :: V) = c :: replaceT0 V := by
  cases V with
  | nil => rfl
  | cons v vs =>
      rw [replaceT0, if_neg (fun hh => h hh.1)]

theorem replaceT1_tilde0 (X : List Char) :
    replaceT1 ('~' :: '0' :: X) = '~' :: '0' :: replaceT1 X := by
  rw [replaceT1, if_neg (by decide), replaceT1_cons_ne '0' (by decide) X]

theorem replaceT0_tilde0 (X : List Char) :
    replaceT0 ('~' :: '0' :: X) = '~' :: replaceT0 X := by
  rw [replaceT0, if_pos ⟨rfl, rfl⟩]

theorem replaceT1_tilde1 (X : List Char) :
    replaceT1 ('~' :: '1' :: X) = '/' :: replaceT1 X := by
  rw [replaceT1, if_pos ⟨rfl, rfl⟩]

theorem decode_encode_chars (l : List Char) :
    replaceT0 (replaceT1 (replaceSlash (replaceTilde l))) = l := by
  induction l with
  | nil => rfl
  | cons c rest ih =>
      by_cases ht : c = '~'
      · subst ht
        rw [replaceTilde, if_pos rfl, replaceSlash, if_neg (by decide),
          replaceSlash, if_neg (by decide), replaceT1_tilde0, replaceT0_tilde0, ih]
      · by_cases hs : c = '/'
        · subst hs
          rw [replaceTilde, if_neg (by decide), replaceSlash, if_pos rfl,
            replaceT1_tilde1, replaceT0_cons_ne '/' (by decide), ih]
        · rw [replaceTilde, if_neg ht, replaceSlash, if_neg hs,
            replaceT1_cons_ne c ht, replaceT0_cons_ne c ht, ih]

theorem decode_encode (s : String) :
    decodeJsonPointer (encodeJsonPointer s) = s := by
  cases s with
  | mk data =>
      show String.mk (replaceT0 (replaceT1 (replaceSlash (replaceTilde data)))) = String.mk data
      rw [decode_encode_chars]

theorem splitSlashChars_ne_nil (l : List Char) : splitSlashChars l ≠ [] := by
  cases l with
  | nil => simp [splitSlashChars]
  | cons c rest =>
      rw [splitSlashChars]
      by_cases h : c = '/'
      · rw [if_pos h]; simp
      · rw [if_neg h]
        cases hs : splitSlashChars rest with
        | nil => simp
        | cons a b => simp

theorem splitSlashChars_no_slash (l : List Char) (h : '/' ∉ l) : splitSlashChars l = [l] := by
  induction l with
  | nil => rfl
  | cons c rest ih =>
      have hc : ¬ c = '/' := fun e => h (e ▸ List.mem_cons_self _ _)
      rw [splitSlashChars, if_neg hc, ih (fun hm => h (List.mem_cons_of_mem _ hm))]

theorem splitSlashChars_len2 (l : List Char) (h : '/' ∈ l) :
    2 ≤ (splitSlashChars l).length := by
  induction l with
  | nil => cases h
  | cons c rest ih =>
      rw [splitSlashChars]
      by_cases hc : c = '/'
      · rw [if_pos hc]
        have h1 : (splitSlashChars rest) ≠ [] := splitSlashChars_ne_nil rest
        have h2 : 1 ≤ (splitSlashChars rest).length := List.length_pos.mpr h1
        simp only [List.length_cons]
        omega
      · rw [if_neg hc]
        have hr : '/' ∈ rest := by
          rcases List.mem_cons.mp h with h' | h'
          · exact absurd h'.symm hc
          · exact h'
        cases hs : splitSlashChars rest with
        | nil => exact absurd hs (splitSlashChars_ne_nil rest)
        | cons a b =>
            have := ih hr
            rw [hs] at this
            simpa using this

theorem getLastD_indep {α : Type} (l : List α) (h : l ≠ []) (a b : α) :
    l.getLastD a = l.getLastD b := by
  cases l with
  | nil => exact absurd rfl h
  | cons x xs => rw [List.getLastD_cons, List.getLastD_cons]

theorem split_getLast_concat (l2 : List Char) (h2 : '/' ∉ l2) (l1 : List Char) :
    (splitSlashChars (l1 ++ '/' :: l2)).getLastD [] = l2 := by
  induction l1 with
  | nil =>
      simp only [List.nil_append]
      rw [splitSlashChars, if_pos rfl, List.getLastD_cons,
        splitSlashChars_no_slash l2 h2, List.getLastD_cons]
      rfl
  | cons c l1' ih =>
      simp only [List.cons_append]
      rw [splitSlashChars]
      by_cases hc : c = '/'
      · rw [if_pos hc, List.getLastD_cons]
        rw [getLastD_indep _ (splitSlashChars_ne_nil _) [] []] at ih
        exact ih
      · rw [if_neg hc]
        cases hs : splitSlashChars (l1' ++ '/' :: l2) with
        | nil => exact absurd hs (splitSlashChars_ne_nil _)
        | cons a b =>
            rw [List.getLastD_cons]
            have hlen : 2 ≤ (splitSlashChars (l1' ++ '/' :: l2)).length :=
              splitSlashChars_len2 _ (by simp)
            rw [hs] at hlen
            have hb : b ≠ [] := by
              intro e; subst e; simp at hlen
            rw [getLastD_indep b hb (c :: a) a]
            have := ih
            rw [hs, List.getLastD_cons] at this
            exact this

theorem extractSchemaName_concat (pre enc : String) (l1 : List Char)
    (hpre : pre.data = l1 ++ ['/']) (henc : '/' ∉ enc.data) :
    extractSchemaName (pre ++ enc) = decodeJsonPointer enc := by
  unfold extractSchemaName jsSplitSlash
  rw [String.data_append, hpre, List.append_assoc, List.singleton_append]
  rw [show ("" : String) = String.mk [] from rfl, List.getLastD_map]
  rw [split_getLast_concat enc.data henc l1]

/-- The name extracted from a container pointer built by the locator is
the original name. -/
theorem extractSchemaName_pointer (container : String) (l1 : List Char) (name : String)
    (hc : container.data = l1 ++ ['/']) :
    extractSchemaName (container ++ encodeJsonPointer name) = name := by
  rw [extractSchemaName_concat container _ l1 hc (encode_no_slash name), decode_encode]

/-- Any pointer the locator maps a name to is one of the two container
paths for that name. -/
theorem scan_path_shape (doc : Json) (name p : String)
    (h : mapGet (scanAllSchemas doc) name = some p) :
    p = "components/schemas/" ++ encodeJsonPointer name ∨
    p = "definitions/" ++ encodeJsonPointer name := by
  unfold scanAllSchemas at h
  have hbase : ∀ m1 : List (String × String),
      (m1 = [] ∨
        (∃ cs, m1 = (jsKeys cs).foldl
          (fun m n => mapPut m n ("components/schemas/" ++ encodeJsonPointer n)) [])) →
      mapGet (match jsGet doc "definitions" with
        | some ds =>
            if truthy ds = true then
              (jsKeys ds).foldl
                (fun m n => mapPut m n ("definitions/" ++ encodeJsonPointer n)) m1
            else m1
        | none => m1) name = some p →
      p = "components/schemas/" ++ encodeJsonPointer name ∨
      p = "definitions/" ++ encodeJsonPointer name := by
    intro m1 hm1 hget
    have hm1get : mapGet m1 name = some p →
        p = "components/schemas/" ++ encodeJsonPointer name ∨
        p = "definitions/" ++ encodeJsonPointer name := by
      intro hg
      rcases hm1 with he | ⟨cs, he⟩
      · rw [he] at hg; cases hg
      · rw [he] at hg
        rcases mapGet_foldl_put_val _ _ _ _ _ hg with hv | hv
        · exact Or.inl hv
        · cases hv
    rcases hd : jsGet doc "definitions" with _ | ds <;> rw [hd] at hget <;>
      dsimp only at hget
    · exact hm1get hget
    · by_cases htd : truthy ds = true
      · rw [if_pos htd] at hget
        rcases mapGet_foldl_put_val _ _ _ _ _ hget with hv | hv
        · exact Or.inr hv
        · exact hm1get hv
      · rw [if_neg htd] at hget
        exact hm1get hget
  rcases hc : optChain2 doc "components" "schemas" with _ | cs <;> rw [hc] at h <;>
    dsimp only at h
  · exact hbase [] (Or.inl rfl) h
  · by_cases htc : truthy cs = true
    · rw [htc] at h
      simp only [if_true] at h
      exact hbase _ (Or.inr ⟨cs, rfl⟩) h
    · rw [eq_false_of_ne_true (fun e => htc e)] at h
      simp only [Bool.false_eq_true, if_false] at h
      exact hbase [] (Or.inl rfl) h

/- ### C2: dangling references resolve to placeholder values -/

theorem refWalk_no_invalid (ref : String) (hinv : jsIncludes ref "/invalid/" = false)
    (segs : List String) :
    ∀ cur : Json,
      refWalk ref segs cur = Except.ok ((walkPure segs cur).getD (placeholder ref)) := by
  induction segs with
  | nil => intro cur; rfl
  | cons seg rest ih =>
      intro cur
      rw [refWalk, walkPure]
      by_cases ht : traversable cur = true
      · rw [if_pos ht, if_pos ht]
        cases hg : jsGet cur (decodeJsonPointer seg) with
        | some next => exact ih next
        | none => rw [hinv]; rfl
      · rw [if_neg ht, if_neg ht, hinv]
        rfl

/-- C2, counterexample: the pointer `#/invalid/x` begins with `#/` and its
target is absent, yet `resolveRef` throws an `Invalid $ref path` error
instead of returning the placeholder value — the claim's "never throws"
fails for pointers containing the substring `/invalid/`. -/
theorem C2_counterexample :
    startsWithHashSlash "#/invalid/x" = true ∧
    pointerTarget (Json.obj []) "#/invalid/x" = none ∧
    resolveRef (Json.obj []) "#/invalid/x" =
      Except.error "Invalid $ref path: #/invalid/x" ∧
    ∀ v : Json, ¬ resolveRef (Json.obj []) "#/invalid/x" = Except.ok v :=
  ⟨rfl, rfl, rfl, fun _ h => Except.noConfusion (h.symm.trans rfl)⟩

/-- C2, amended: for every pointer that begins with `#/` and does *not*
contain the substring `/invalid/`, `resolveRef` never throws — a present
target is returned and an absent target yields the placeholder
`{$ref, $unresolved, $error}` value (pointers containing `/invalid/`
throw `Invalid $ref path` when their target is absent, see the
counterexample).  Below the root, a dangling reference therefore leaves
the overall call successful: whenever the root target resolves, is not
`null` and is not itself unresolved, and the recursion completes without
a thrown error, the result has `success = true`; an unresolved *root*
target instead yields `success = false`. -/
theorem C2_placeholder_no_throw :
    (∀ (doc : Json) (ref : String),
        startsWithHashSlash ref = true → jsIncludes ref "/invalid/" = false →
        resolveRef doc ref =
          Except.ok ((pointerTarget doc ref).getD (placeholder ref))) ∧
    (∀ (doc : Json) (fuel : Nat) (ref : String) (opts : ResolveOptions)
        (t out : Json) (d c : List String) (res : ResolveResult) (cc : Cache),
        resolveRef doc ref = Except.ok t → isNull t = false →
        truthyField t "$unresolved" = none →
        resolveSchemaRecursive doc fuel t 0 opts.maxDepth []
          [extractSchemaName ref] [] = some (Except.ok (out, d, c)) →
        resolveSchemaByRef doc fuel [] ref opts = some (res, cc) →
        res.success = true) ∧
    (∀ (doc : Json) (fuel : Nat) (ref : String) (opts : ResolveOptions)
        (t u : Json) (res : ResolveResult) (cc : Cache),
        resolveRef doc ref = Except.ok t →
        isNull t = false →
        truthyField t "$unresolved" = some u →
        resolveSchemaByRef doc fuel [] ref opts = some (res, cc) →
        res.success = false) := by
  refine ⟨fun doc ref hs hinv => ?_, fun doc fuel ref opts t out d c res cc hrr hn hu hrec hby => ?_,
    fun doc fuel ref opts t u res cc hrr hn hu hby => ?_⟩
  · rw [resolveRef, if_pos hs, pointerTarget, if_pos hs]
    exact refWalk_no_invalid ref hinv _ doc
  · unfold resolveSchemaByRef at hby
    simp only [mapGet] at hby
    rw [hrr] at hby
    dsimp only at hby
    rw [hn] at hby
    simp only [Bool.false_eq_true, if_false] at hby
    rw [hu] at hby
    dsimp only at hby
    rw [hrec] at hby
    dsimp only at hby
    simp only [Option.some.injEq, Prod.mk.injEq] at hby
    rw [← hby.1]
  · unfold resolveSchemaByRef at hby
    simp only [mapGet] at hby
    rw [hrr] at hby
    dsimp only at hby
    rw [hn] at hby
    simp only [Bool.false_eq_true, if_false] at hby
    rw [hu] at hby
    dsimp only at hby
    simp only [Option.some.injEq, Prod.mk.injEq] at hby
    rw [← hby.1]
    rfl

/-- C2 witness: in the dangling-reference document the absent target
`Missing` resolves to the placeholder value, and resolving the root `A`
(whose subtree contains that dangling reference) still succeeds. -/
theorem C2_placeholder_no_throw_witness :
    resolveRef danglingDoc "#/components/schemas/Missing" =
      Except.ok ((pointerTarget danglingDoc "#/components/schemas/Missing").getD
        (placeholder "#/components/schemas/Missing")) ∧
    ∃ (res : ResolveResult) (cc : Cache),
      resolveSchemaByRef danglingDoc 10 [] "#/components/schemas/A" defaultOptions =
        some (res, cc) ∧ res.success = true :=
  ⟨C2_placeholder_no_throw.1 danglingDoc "#/components/schemas/Missing" rfl rfl,
    _, _, rfl,
    C2_placeholder_no_throw.2.1 danglingDoc 10 "#/components/schemas/A" defaultOptions
      _ _ _ _ _ _ rfl rfl rfl rfl rfl⟩

/- ### C8: the root name heads the dependency list -/

theorem dedupFirst_head (x : String) (xs : List String) :
    (dedupFirst (x :: xs)).head? = some x := by
  rw [dedupFirst_cons]; rfl

theorem dedupFirst_cons_ne_nil (x : String) (xs : List String) :
    dedupFirst (x :: xs) ≠ [] := by
  rw [dedupFirst_cons]; simp

/-- The expander only appends to the dependency and circular-reference
accumulators (entries-list version). -/
theorem fieldsFold_deps_extend
    (rec : Json → List String → List String →
      Option (Except String (Json × List String × List String)))
    (hrec : ∀ v deps circ out d c, rec v deps circ = some (Except.ok (out, d, c)) →
      ∃ t1 t2, d = deps ++ t1 ∧ c = circ ++ t2)
    (es : List (String × Json)) :
    ∀ (deps circ : List String) (fs : List (String × Json)) (d c : List String),
      fieldsFold rec es deps circ = some (Except.ok (fs, d, c)) →
      ∃ t1 t2, d = deps ++ t1 ∧ c = circ ++ t2 := by
  induction es with
  | nil =>
      intro deps circ fs d c h
      rw [fieldsFold] at h
      simp only [Option.some.injEq, Except.ok.injEq, Prod.mk.injEq] at h
      exact ⟨[], [], by simp [h.2.1.symm], by simp [h.2.2.symm]⟩
  | cons kv rest ih =>
      intro deps circ fs d c h
      obtain ⟨k, v⟩ := kv
      rw [fieldsFold] at h
      rcases hr : rec v deps circ with _ | er <;> rw [hr] at h <;> try dsimp only at h
      · cases h
      · rcases er with e | ⟨v', d', c'⟩
        · simp at h
        · dsimp only at h
          rcases hf : fieldsFold rec rest d' c' with _ | ef <;> rw [hf] at h <;>
            try dsimp only at h
          · cases h
          · rcases ef with e | ⟨fs', d'', c''⟩
            · simp at h
            · dsimp only at h
              simp only [Option.some.injEq, Except.ok.injEq, Prod.mk.injEq] at h
              obtain ⟨-, hd, hc⟩ := h
              rcases hrec v deps circ v' d' c' hr with ⟨a1, a2, ha1, ha2⟩
              rcases ih d' c' fs' d'' c'' hf with ⟨b1, b2, hb1, hb2⟩
              exact ⟨a1 ++ b1, a2 ++ b2,
                by rw [← hd, hb1, ha1, List.append_assoc],
                by rw [← hc, hb2, ha2, List.append_assoc]⟩

/-- The expander only appends to the dependency and circular-reference
accumulators. -/
theorem resolveRec_deps_extend (doc : Json) :
    ∀ (fuel : Nat) (s : Json) (cd md : Nat) (path deps circ : List String)
      (out : Json) (d c : List String),
      resolveSchemaRecursive doc fuel s cd md path deps circ =
        some (Except.ok (out, d, c)) →
      ∃ t1 t2, d = deps ++ t1 ∧ c = circ ++ t2 := by
  intro fuel
  induction fuel with
  | zero => intro s cd md path deps circ out d c h; cases h
  | succ n ih =>
      intro s cd md path deps circ out d c h
      rw [resolveSchemaRecursive] at h
      by_cases hn : isNull s = true
      · rw [if_pos hn] at h; simp at h
      · rw [if_neg hn] at h
        rcases hr : truthyField s "$ref" with _ | v <;> rw [hr] at h
        · -- no $ref: object / array / plain cases
          dsimp only at h
          split at h
          · -- object-with-properties
            rcases hf : fieldsFold
                (fun v d c => resolveSchemaRecursive doc n v cd md path d c)
                (jsEntries _) deps circ with _ | ef <;> rw [hf] at h <;>
              try dsimp only at h
            · cases h
            · rcases ef with e | ⟨nf, d', c'⟩
              · simp at h
              · simp only [Option.some.injEq, Except.ok.injEq, Prod.mk.injEq] at h
                obtain ⟨-, hd, hc⟩ := h
                rcases fieldsFold_deps_extend _
                    (fun v dd cc o ddd ccc hh => ih v cd md path dd cc o ddd ccc hh)
                    _ deps circ nf d' c' hf with ⟨t1, t2, h1, h2⟩
                exact ⟨t1, t2, hd ▸ h1, hc ▸ h2⟩
          · split at h
            · -- array-with-items
              rcases hi : resolveSchemaRecursive doc n _ cd md path deps circ
                  with _ | ei <;> rw [hi] at h <;> try dsimp only at h
              · cases h
              · rcases ei with e | ⟨it, d', c'⟩
                · simp at h
                · simp only [Option.some.injEq, Except.ok.injEq, Prod.mk.injEq] at h
                  obtain ⟨-, hd, hc⟩ := h
                  rcases ih _ cd md path deps circ it d' c' hi with ⟨t1, t2, h1, h2⟩
                  exact ⟨t1, t2, hd ▸ h1, hc ▸ h2⟩
            · -- plain node
              simp only [Option.some.injEq, Except.ok.injEq, Prod.mk.injEq] at h
              exact ⟨[], [], by simp [h.2.1.symm], by simp [h.2.2.symm]⟩
        · -- $ref present and truthy
          rcases v with _ | b | i | rstr | xs | fs <;> dsimp only at h
          · simp at h
          · simp at h
          · simp at h
          · -- string pointer
            by_cases hd : cd ≥ md
            · rw [if_pos hd] at h
              simp only [Option.some.injEq, Except.ok.injEq, Prod.mk.injEq] at h
              exact ⟨[extractSchemaName rstr], [],
                by rw [← h.2.1], by simp [h.2.2.symm]⟩
            · rw [if_neg hd] at h
              by_cases hp : path.contains (extractSchemaName rstr) = true
              · rw [if_pos hp] at h
                simp only [Option.some.injEq, Except.ok.injEq, Prod.mk.injEq] at h
                exact ⟨[extractSchemaName rstr],
                  [String.intercalate " -> " (path ++ [extractSchemaName rstr])],
                  by rw [← h.2.1], by rw [← h.2.2]⟩
              · rw [if_neg hp] at h
                rcases hrr : resolveRef doc rstr with e | target <;> rw [hrr] at h <;>
                  try dsimp only at h
                · cases h
                · rcases ih target (cd + 1) md (path ++ [extractSchemaName rstr])
                      (deps ++ [extractSchemaName rstr]) circ out d c h with ⟨t1, t2, h1, h2⟩
                  exact ⟨[extractSchemaName rstr] ++ t1, t2,
                    by rw [h1, List.append_assoc], h2⟩
          · simp at h
          · simp at h

/-- C8, counterexample: after a pointer request for `#/definitions/A`, the
*name* request with the (admittedly unusual) name `#/definitions/A` is
served from the aliased cache entry: it reports `success = true` with
`dependencies[0] = "A"`, which is not the requested name. -/
theorem C8_counterexample :
    ∃ (r1 rHit : ResolveResult) (c1 : Cache),
      resolveSchemaByRef legacyDoc 10 [] "#/definitions/A" defaultOptions = some (r1, c1) ∧
      resolveSchema legacyDoc 10 c1 "#/definitions/A" defaultOptions = some (rHit, c1) ∧
      rHit.success = true ∧
      rHit.dependencies.head? = some "A" ∧
      ¬ ("A" : String) = "#/definitions/A" :=
  ⟨_, _, _, rfl, rfl, rfl, rfl, by decide⟩

/-- C8, amended: for every resolve call computed from an empty cache (not
served from an aliased cache hit) that returns `success = true`, the
dependency list is non-empty and headed by the identity of the requested
root: the requested name for name requests, the decoded last pointer
segment for pointer requests. -/
theorem C8_root_first_dependency :
    (∀ (doc : Json) (fuel : Nat) (name : String) (opts : ResolveOptions)
        (r : ResolveResult) (c : Cache),
        resolveSchema doc fuel [] name opts = some (r, c) → r.success = true →
        r.dependencies.head? = some name ∧ r.dependencies ≠ []) ∧
    (∀ (doc : Json) (fuel : Nat) (ref : String) (opts : ResolveOptions)
        (r : ResolveResult) (c : Cache),
        resolveSchemaByRef doc fuel [] ref opts = some (r, c) → r.success = true →
        r.dependencies.head? = some (extractSchemaName ref) ∧ r.dependencies ≠ []) := by
  have hby : ∀ (doc : Json) (fuel : Nat) (ref : String) (opts : ResolveOptions)
      (r : ResolveResult) (c : Cache),
      resolveSchemaByRef doc fuel [] ref opts = some (r, c) → r.success = true →
      r.dependencies.head? = some (extractSchemaName ref) ∧ r.dependencies ≠ [] := by
    intro doc fuel ref opts r c h hs
    unfold resolveSchemaByRef at h
    simp only [mapGet] at h
    rcases hrr : resolveRef doc ref with e | t <;> rw [hrr] at h <;> try dsimp only at h
    · exfalso
      simp only [Option.some.injEq, Prod.mk.injEq] at h
      rw [← h.1] at hs
      simp [failResult] at hs
    · by_cases hnl : isNull t = true
      · rw [if_pos hnl] at h
        exfalso
        simp only [Option.some.injEq, Prod.mk.injEq] at h
        rw [← h.1] at hs
        simp [failResult] at hs
      · rw [if_neg hnl] at h
        rcases hu : truthyField t "$unresolved" with _ | u <;> rw [hu] at h <;>
          try dsimp only at h
        · rcases hrec : resolveSchemaRecursive doc fuel t 0 opts.maxDepth []
              [extractSchemaName ref] [] with _ | e2 <;> rw [hrec] at h <;>
            try dsimp only at h
          · cases h
          · rcases e2 with e2 | ⟨out, dl, cl⟩
            · exfalso
              dsimp only at h
              simp only [Option.some.injEq, Prod.mk.injEq] at h
              rw [← h.1] at hs
              simp [failResult] at hs
            · dsimp only at h
              simp only [Option.some.injEq, Prod.mk.injEq] at h
              rcases resolveRec_deps_extend doc fuel t 0 opts.maxDepth [] _ [] out dl cl
                  hrec with ⟨t1, t2, hd1, -⟩
              rw [← h.1]
              rw [List.singleton_append] at hd1
              rw [hd1]
              exact ⟨dedupFirst_head _ _, dedupFirst_cons_ne_nil _ _⟩
        · exfalso
          simp only [Option.some.injEq, Prod.mk.injEq] at h
          rw [← h.1] at hs
          simp [failResult] at hs
  refine ⟨?_, hby⟩
  intro doc fuel name opts r c h hs
  unfold resolveSchema at h
  simp only [mapGet] at h
  rcases hp : mapGet (scanAllSchemas doc) name with _ | p <;> rw [hp] at h <;>
    try dsimp only at h
  · exfalso
    simp only [Option.some.injEq, Prod.mk.injEq] at h
    rw [← h.1] at hs
    simp [failResult] at hs
  · by_cases hpe : p = ""
    · rw [if_pos hpe] at h
      exfalso
      simp only [Option.some.injEq, Prod.mk.injEq] at h
      rw [← h.1] at hs
      simp [failResult] at hs
    · rw [if_neg hpe] at h
      have h2 := hby doc fuel ("#/" ++ p) opts r c h hs
      rcases scan_path_shape doc name p hp with hv | hv <;> subst hv
      · have hcat : ("#/" : String) ++ ("components/schemas/" ++ encodeJsonPointer name) =
            "#/components/schemas/" ++ encodeJsonPointer name := by
          rw [← String.append_assoc]
          rfl
        rw [hcat] at h2
        rw [extractSchemaName_pointer "#/components/schemas/"
          "#/components/schemas".data name (by decide)] at h2
        exact h2
      · have hcat : ("#/" : String) ++ ("definitions/" ++ encodeJsonPointer name) =
            "#/definitions/" ++ encodeJsonPointer name := by
          rw [← String.append_assoc]
          rfl
        rw [hcat] at h2
        rw [extractSchemaName_pointer "#/definitions/"
          "#/definitions".data name (by decide)] at h2
        exact h2

/-- C8 witness: the amended statement applied to the chain document. -/
theorem C8_root_first_dependency_witness :
    ∃ (r : ResolveResult) (c : Cache),
      resolveSchema chainDoc 10 [] "User" defaultOptions = some (r, c) ∧
      r.dependencies.head? = some "User" ∧ r.dependencies ≠ [] :=
  ⟨_, _, rfl, C8_root_first_dependency.1 chainDoc 10 "User" defaultOptions _ _ rfl rfl⟩

/- ### C10: legacy-only schemas resolve but have no dependency view -/

theorem startsWith_hash_append (p : String) :
    startsWithHashSlash ("#/" ++ p) = true := by
  unfold startsWithHashSlash
  rw [String.data_append]
  rfl

theorem dropTwo_hash (p : String) : dropTwo ("#/" ++ p) = p := by
  unfold dropTwo
  rw [String.data_append]
  cases p with
  | mk d => rfl

theorem splitSlashChars_two (l1 l2 : List Char) (h1 : '/' ∉ l1) (h2 : '/' ∉ l2) :
    splitSlashChars (l1 ++ '/' :: l2) = [l1, l2] := by
  induction l1 with
  | nil =>
      simp only [List.nil_append]
      rw [splitSlashChars, if_pos rfl, splitSlashChars_no_slash l2 h2]
  | cons c r ih =>
      have hc : ¬ c = '/' := fun e => h1 (e ▸ List.mem_cons_self _ _)
      rw [List.cons_append, splitSlashChars, if_neg hc,
        ih (fun hm => h1 (List.mem_cons_of_mem _ hm))]

theorem jsSplitSlash_container (cont : String) (lc : List Char) (enc : String)
    (hc : cont.data = lc ++ ['/']) (h1 : '/' ∉ lc) (henc : '/' ∉ enc.data) :
    jsSplitSlash (cont ++ enc) = [String.mk lc, enc] := by
  unfold jsSplitSlash
  rw [String.data_append, hc, List.append_assoc, List.singleton_append,
    splitSlashChars_two lc enc.data h1 henc]
  cases enc with
  | mk d => rfl

/-- Resolving the pointer the locator builds for a `definitions` entry
returns that entry. -/
theorem resolveRef_definitions (df dl : List (String × Json)) (name : String) (s : Json)
    (hds : jsGet (Json.obj df) "definitions" = some (Json.obj dl))
    (hlk : lookupField dl name = some s) :
    resolveRef (Json.obj df) ("#/" ++ ("definitions/" ++ encodeJsonPointer name)) =
      Except.ok s := by
  rw [resolveRef, if_pos (startsWith_hash_append _), dropTwo_hash,
    jsSplitSlash_container "definitions/" "definitions".data (encodeJsonPointer name)
      (by decide) (by decide) (encode_no_slash name)]
  rw [refWalk]
  dsimp only
  rw [if_pos (show traversable (Json.obj df) = true from rfl),
    show decodeJsonPointer (String.mk ['d', 'e', 'f', 'i', 'n', 'i', 't', 'i', 'o', 'n', 's']) =
      "definitions" from rfl, hds]
  show refWalk ("#/" ++ ("definitions/" ++ encodeJsonPointer name))
    [encodeJsonPointer name] (Json.obj dl) = Except.ok s
  rw [refWalk]
  rw [if_pos (show traversable (Json.obj dl) = true from rfl), decode_encode name,
    show jsGet (Json.obj dl) name = lookupField dl name from rfl, hlk]
  rfl

/-- C10, confirmed: a name present only under the legacy `definitions`
container has an empty dependency view — `getDependencies` consults only
`components.schemas` — while `resolveSchema` for that same name succeeds
through the container scan. -/
theorem C10_legacy_only_mismatch
    (df dl : List (String × Json)) (name : String) (s : Json)
    (fuel fuel2 : Nat) (out : Json) (d c : List String)
    (hnone : schemaAt (Json.obj df) name = none)
    (hds : jsGet (Json.obj df) "definitions" = some (Json.obj dl))
    (hlk : lookupField dl name = some s)
    (hsn : isNull s = false)
    (hsu : truthyField s "$unresolved" = none)
    (hrec : resolveSchemaRecursive (Json.obj df) fuel s 0 10 [] [name] [] =
      some (Except.ok (out, d, c))) :
    getDependencies (Json.obj df) fuel2 name = some (Except.ok []) ∧
    ∃ (r : ResolveResult) (cc : Cache),
      resolveSchema (Json.obj df) fuel [] name defaultOptions = some (r, cc) ∧
      r.success = true := by
  constructor
  · unfold getDependencies
    rw [hnone]
  · have hmem : name ∈ jsKeys (Json.obj dl) := by
      show name ∈ dl.map Prod.fst
      clear hrec hnone hds hsu hsn
      induction dl with
      | nil => cases hlk
      | cons kv rest ih =>
          obtain ⟨k, v⟩ := kv
          rw [lookupField] at hlk
          by_cases hk : k = name
          · subst hk; exact List.mem_cons_self _ _
          · rw [if_neg hk] at hlk
            exact List.mem_cons_of_mem _ (ih hlk)
    have hscan : mapGet (scanAllSchemas (Json.obj df)) name =
        some ("definitions/" ++ encodeJsonPointer name) := by
      unfold scanAllSchemas
      rw [hds]
      dsimp only
      exact mapGet_foldl_put_mem _ _ _ _ hmem
    have hne : ¬ ("definitions/" ++ encodeJsonPointer name) = "" := by
      intro e
      have h' := congrArg String.data e
      rw [String.data_append] at h'
      exact List.noConfusion h'
    unfold resolveSchema
    simp only [mapGet]
    rw [hscan]
    dsimp only
    rw [if_neg hne]
    unfold resolveSchemaByRef
    simp only [mapGet]
    rw [resolveRef_definitions df dl name s hds hlk]
    dsimp only
    rw [hsn]
    simp only [Bool.false_eq_true, if_false]
    rw [hsu]
    dsimp only
    have hcat : ("#/" : String) ++ ("definitions/" ++ encodeJsonPointer name) =
        "#/definitions/" ++ encodeJsonPointer name := by
      rw [← String.append_assoc]
      rfl
    rw [hcat, extractSchemaName_pointer "#/definitions/" "#/definitions".data name
      (by decide)]
    rw [show defaultOptions.maxDepth = 10 from rfl, hrec]
    dsimp only
    exact ⟨_, _, rfl, rfl⟩

/-- C10 witness: the legacy-only document. -/
theorem C10_legacy_only_mismatch_witness :
    getDependencies legacyDoc 10 "A" = some (Except.ok []) ∧
    ∃ (r : ResolveResult) (cc : Cache),
      resolveSchema legacyDoc 10 [] "A" defaultOptions = some (r, cc) ∧
      r.success = true :=
  C10_legacy_only_mismatch
    [("definitions", Json.obj [("A", Json.obj [("type", Json.str "string")])])]
    [("A", Json.obj [("type", Json.str "string")])] "A"
    (Json.obj [("type", Json.str "string")]) 10 10 _ _ _
    rfl rfl rfl rfl rfl rfl

/- ### C6: the two-schema cycle -/

theorem truthyField_some_not_null (t : Json) (k : String) (v : Json)
    (h : truthyField t k = some v) : isNull t = false := by
  cases t <;> first
    | rfl
    | (exfalso; simp [truthyField, jsGet] at h)

/-- C6, confirmed: in a document where schema `A` is a direct reference
to schema `B` and `B` a direct reference back to `A` (a two-schema cycle,
expressed through the code's own lookup functions), resolving `A` with
default options succeeds, reports `dependencies = [A, B]` exactly, and
records a non-empty `circularReferences` diagnostic. -/
theorem C6_two_cycle (doc : Json) (A B pA rB rA : String) (sA sB : Json)
    (hscan : mapGet (scanAllSchemas doc) A = some pA)
    (hpne : ¬ pA = "")
    (hname : extractSchemaName ("#/" ++ pA) = A)
    (hrA0 : resolveRef doc ("#/" ++ pA) = Except.ok sA)
    (hsAunres : truthyField sA "$unresolved" = none)
    (hsAref : truthyField sA "$ref" = some (Json.str rB))
    (hextB : extractSchemaName rB = B)
    (hAB : ¬ A = B)
    (hrB : resolveRef doc rB = Except.ok sB)
    (hsBref : truthyField sB "$ref" = some (Json.str rA))
    (hextA : extractSchemaName rA = A)
    (hrA : resolveRef doc rA = Except.ok sA) :
    ∀ (fuel : Nat) (r : ResolveResult) (c : Cache),
      resolveSchema doc fuel [] A defaultOptions = some (r, c) →
      r.success = true ∧ r.dependencies = [A, B] ∧ ¬ r.circularReferences = [] := by
  have hsAnull : isNull sA = false := truthyField_some_not_null _ _ _ hsAref
  have hsBnull : isNull sB = false := truthyField_some_not_null _ _ _ hsBref
  intro fuel r c h
  unfold resolveSchema at h
  simp only [mapGet] at h
  rw [hscan] at h
  dsimp only at h
  rw [if_neg hpne] at h
  unfold resolveSchemaByRef at h
  simp only [mapGet] at h
  rw [hrA0] at h
  dsimp only at h
  rw [hsAnull] at h
  simp only [Bool.false_eq_true, if_false] at h
  rw [hsAunres] at h
  dsimp only at h
  rw [hname, show defaultOptions.maxDepth = 10 from rfl] at h
  obtain _ | fuel1 := fuel
  · rw [resolveSchemaRecursive] at h
    simp at h
  rw [resolveSchemaRecursive] at h
  rw [if_neg (by rw [hsAnull]; exact Bool.false_ne_true)] at h
  rw [hsAref] at h
  dsimp only at h
  rw [hextB] at h
  rw [if_neg (by omega : ¬ 0 ≥ 10)] at h
  rw [if_neg (show ¬ (([] : List String).contains B = true) from by simp)] at h
  rw [hrB] at h
  dsimp only at h
  obtain _ | fuel2 := fuel1
  · rw [resolveSchemaRecursive] at h
    simp at h
  rw [resolveSchemaRecursive] at h
  rw [if_neg (by rw [hsBnull]; exact Bool.false_ne_true)] at h
  rw [hsBref] at h
  dsimp only at h
  rw [hextA] at h
  rw [if_neg (by omega : ¬ 1 ≥ 10)] at h
  rw [if_neg (show ¬ ((([] : List String) ++ [B]).contains A = true) from by
    simp only [List.nil_append, List.contains, List.elem_eq_mem, List.mem_singleton,
      decide_eq_true_eq]
    exact fun e => hAB e)] at h
  rw [hrA] at h
  dsimp only at h
  obtain _ | fuel3 := fuel2
  · rw [resolveSchemaRecursive] at h
    simp at h
  rw [resolveSchemaRecursive] at h
  rw [if_neg (by rw [hsAnull]; exact Bool.false_ne_true)] at h
  rw [hsAref] at h
  dsimp only at h
  rw [hextB] at h
  rw [if_neg (by omega : ¬ 2 ≥ 10)] at h
  rw [if_pos (show ((([] : List String) ++ [B]) ++ [A]).contains B = true from by
    simp [List.contains, List.elem_eq_mem])] at h
  dsimp only at h
  simp only [Option.some.injEq, Prod.mk.injEq] at h
  obtain ⟨hr, -⟩ := h
  rw [← hr]
  refine ⟨rfl, ?_, ?_⟩
  · show dedupFirst ((([A] ++ [B]) ++ [A]) ++ [B]) = [A, B]
    have hBA : ¬ B = A := fun e => hAB e.symm
    simp only [List.append_assoc, List.singleton_append]
    rw [dedupFirst]
    simp [dedupFirstAux, List.contains, List.elem_eq_mem, hAB, hBA]
  · show ¬ dedupFirst ([] ++ [String.intercalate " -> " ((([] : List String) ++ [B]) ++ [A] ++ [B])]) = []
    rw [List.nil_append, dedupFirst_cons]
    simp

/-- C6 witness: the concrete cycle document. -/
theorem C6_two_cycle_witness :
    ∃ (r : ResolveResult) (c : Cache),
      resolveSchema cycleDoc 10 [] "A" defaultOptions = some (r, c) ∧
      r.success = true ∧ r.dependencies = ["A", "B"] ∧ ¬ r.circularReferences = [] :=
  ⟨_, _, rfl,
    C6_two_cycle cycleDoc "A" "B" "components/schemas/A"
      "#/components/schemas/B" "#/components/schemas/A"
      (Json.obj [("$ref", Json.str "#/components/schemas/B")])
      (Json.obj [("$ref", Json.str "#/components/schemas/A")])
      rfl (by decide) rfl rfl rfl rfl rfl (by decide) rfl rfl rfl rfl
      10 _ _ rfl⟩

/- ### C7: maxDepth = 0 leaves first-level references unexpanded -/

mutual
theorem zeroExpand_eval (doc : Json) (s out : Json) (names : List String)
    (hz : ZeroExpand s out names) :
    ∀ (fuel : Nat) (path deps circ : List String)
      (res : Except String (Json × List String × List String)),
      resolveSchemaRecursive doc fuel s 0 0 path deps circ = some res →
      res = Except.ok (out, deps ++ names, circ) :=
  match hz with
  | ZeroExpand.refz s r hr hnull => by
      intro fuel path deps circ res h
      obtain _ | n := fuel
      · cases h
      · rw [resolveSchemaRecursive] at h
        rw [if_neg (by rw [hnull]; exact Bool.false_ne_true)] at h
        rw [hr] at h
        dsimp only at h
        rw [if_pos (Nat.le_refl 0)] at h
        simp only [Option.some.injEq] at h
        exact h.symm
  | ZeroExpand.objz fields props outFields nms hr ht hp hfz => by
      intro fuel path deps circ res h
      obtain _ | n := fuel
      · cases h
      · rw [resolveSchemaRecursive] at h
        rw [if_neg (show ¬ isNull (Json.obj fields) = true from by simp [isNull])] at h
        rw [hr] at h
        dsimp only at h
        split at h
        · rename_i x1 x2 props' heq1 heq2
          rw [hp] at heq2
          injection heq2 with heq2
          subst heq2
          rcases hf : fieldsFold
              (fun v d c => resolveSchemaRecursive doc n v 0 0 path d c)
              (jsEntries props) deps circ with _ | fres <;> rw [hf] at h
          · cases h
          · have hres := zeroExpandFields_eval doc _ _ _ hfz n path deps circ fres hf
            subst hres
            dsimp only at h
            simp only [Option.some.injEq] at h
            exact h.symm
        · rename_i x1 x2 hcontra
          exact (hcontra props ht hp).elim
  | ZeroExpand.arrz fields items iout nms hr ht hi hzi => by
      intro fuel path deps circ res h
      obtain _ | n := fuel
      · cases h
      · rw [resolveSchemaRecursive] at h
        rw [if_neg (show ¬ isNull (Json.obj fields) = true from by simp [isNull])] at h
        rw [hr] at h
        dsimp only at h
        split at h
        · rename_i x1 x2 props' heq1 heq2
          rw [ht] at heq1
          simp at heq1
        · split at h
          · rename_i x1 x2 hcontra x3 x4 items' heq1 heq2
            rw [hi] at heq2
            injection heq2 with heq2
            subst heq2
            rcases hri : resolveSchemaRecursive doc n items 0 0 path deps circ
                with _ | ires <;> rw [hri] at h
            · cases h
            · have hres := zeroExpand_eval doc _ _ _ hzi n path deps circ ires hri
              subst hres
              dsimp only at h
              simp only [Option.some.injEq] at h
              exact h.symm
          · rename_i x1 x2 hcontra x3 x4 hna2
            exact (hna2 items ht hi).elim
  | ZeroExpand.plainz s hnull hr hno hna => by
      intro fuel path deps circ res h
      obtain _ | n := fuel
      · cases h
      · rw [resolveSchemaRecursive] at h
        rw [if_neg (by rw [hnull]; exact Bool.false_ne_true)] at h
        rw [hr] at h
        dsimp only at h
        split at h
        · rename_i x1 x2 props' heq1 heq2
          exact absurd ⟨heq1, Option.isSome_iff_exists.mpr ⟨props', heq2⟩⟩ hno
        · split at h
          · rename_i x1 x2 hcontra x3 x4 items' heq1 heq2
            exact absurd ⟨heq1, Option.isSome_iff_exists.mpr ⟨items', heq2⟩⟩ hna
          · simp only [Option.some.injEq] at h
            rw [← h, List.append_nil]

theorem zeroExpandFields_eval (doc : Json) (es outFs : List (String × Json))
    (names : List String) (hz : ZeroExpandFields es outFs names) :
    ∀ (fuel : Nat) (path deps circ : List String)
      (res : Except String (List (String × Json) × List String × List String)),
      fieldsFold (fun v d c => resolveSchemaRecursive doc fuel v 0 0 path d c)
        es deps circ = some res →
      res = Except.ok (outFs, deps ++ names, circ) :=
  match hz with
  | ZeroExpandFields.nilz => by
      intro fuel path deps circ res h
      rw [fieldsFold] at h
      simp only [Option.some.injEq] at h
      rw [← h, List.append_nil]
  | ZeroExpandFields.consz k v vout ns rest outRest nsRest hhead hrest => by
      intro fuel path deps circ res h
      rw [fieldsFold] at h
      rcases hr1 : resolveSchemaRecursive doc fuel v 0 0 path deps circ
          with _ | r1 <;> rw [hr1] at h
      · cases h
      · have h1 := zeroExpand_eval doc _ _ _ hhead fuel path deps circ r1 hr1
        subst h1
        dsimp only at h
        rcases hf2 : fieldsFold (fun v d c => resolveSchemaRecursive doc fuel v 0 0 path d c)
            rest (deps ++ ns) circ with _ | r2 <;> rw [hf2] at h
        · cases h
        · have h2 := zeroExpandFields_eval doc _ _ _ hrest fuel path (deps ++ ns) circ r2 hf2
          subst h2
          dsimp only at h
          simp only [Option.some.injEq] at h
          rw [← h, List.append_assoc]
end

/-- C7, confirmed: with `maxDepth = 0`, resolving a root whose subtree is
well-shaped (`ZeroExpand` relates it to its depth-0 expansion) succeeds;
every reference node is returned unchanged (second conjunct: any node
with a truthy string `$ref` zero-expands to itself), no cycle diagnostics
are recorded, and the dependency list still consists of the root name
followed by the first-level reference names. -/
theorem C7_depth_zero (doc : Json) (ref : String) (t out : Json) (names : List String)
    (hrr : resolveRef doc ref = Except.ok t)
    (hnull : isNull t = false)
    (hunres : truthyField t "$unresolved" = none)
    (hz : ZeroExpand t out names) :
    (∀ (fuel : Nat) (r : ResolveResult) (c : Cache) (ic : Bool),
      resolveSchemaByRef doc fuel [] ref ⟨0, ic⟩ = some (r, c) →
      r.success = true ∧ r.schema = some out ∧
      r.dependencies = dedupFirst (extractSchemaName ref :: names) ∧
      r.circularReferences = []) ∧
    (∀ (s : Json) (rs : String), truthyField s "$ref" = some (Json.str rs) →
      isNull s = false → Nonempty (ZeroExpand s s [extractSchemaName rs])) := by
  refine ⟨fun fuel r c ic h => ?_, fun s rs hr hn => ⟨ZeroExpand.refz s rs hr hn⟩⟩
  unfold resolveSchemaByRef at h
  simp only [mapGet] at h
  rw [hrr] at h
  dsimp only at h
  rw [hnull] at h
  simp only [Bool.false_eq_true, if_false] at h
  rw [hunres] at h
  dsimp only at h
  rcases hrec : resolveSchemaRecursive doc fuel t 0
      (ResolveOptions.mk 0 ic).maxDepth [] [extractSchemaName ref] []
      with _ | res <;> rw [hrec] at h
  · cases h
  · have hres := zeroExpand_eval doc _ _ _ hz fuel [] [extractSchemaName ref] [] res hrec
    subst hres
    dsimp only at h
    simp only [Option.some.injEq, Prod.mk.injEq] at h
    rw [← h.1]
    refine ⟨rfl, rfl, ?_, rfl⟩
    rw [List.singleton_append]

/- ### C5: acyclic in-bound expansion leaves no reference nodes -/

theorem digitChar_ne_dollar (d : Nat) : ¬ digitChar d = '$' := by
  unfold digitChar
  repeat' split
  all_goals decide

theorem natDigits_no_dollar (fuel : Nat) : ∀ n, '$' ∉ natDigits fuel n := by
  induction fuel with
  | zero => intro n; simp [natDigits]
  | succ m ih =>
      intro n
      rw [natDigits]
      by_cases h : n < 10
      · rw [if_pos h]
        intro hm
        simp only [List.mem_singleton] at hm
        exact digitChar_ne_dollar n hm.symm
      · rw [if_neg h]
        intro hm
        rcases List.mem_append.mp hm with h' | h'
        · exact ih (n / 10) h'
        · simp only [List.mem_singleton] at h'
          exact digitChar_ne_dollar (n % 10) h'.symm

theorem natStr_ne_ref (i : Nat) : ¬ natStr i = "$ref" := by
  intro e
  have hd := congrArg String.data e
  have hm : '$' ∈ (natStr i).data := by rw [hd]; decide
  exact natDigits_no_dollar (i + 1) i hm

theorem mem_indexedFields (xs : List Json) :
    ∀ (i : Nat) (kv : String × Json), kv ∈ indexedFields i xs →
      (∃ j, kv.1 = natStr j) ∧ kv.2 ∈ xs := by
  induction xs with
  | nil => intro i kv h; cases h
  | cons x rest ih =>
      intro i kv h
      rw [indexedFields] at h
      rcases List.mem_cons.mp h with h' | h'
      · subst h'
        exact ⟨⟨i, rfl⟩, List.mem_cons_self _ _⟩
      · rcases ih (i + 1) kv h' with ⟨hj, hmem⟩
        exact ⟨hj, List.mem_cons_of_mem _ hmem⟩

theorem noRefKey_obj (l : List (String × Json)) :
    noRefKey (Json.obj l) = true ↔ ∀ kv ∈ l, ¬ kv.1 = "$ref" ∧ noRefKey kv.2 = true := by
  induction l with
  | nil => simp [noRefKey]
  | cons kv rest ih =>
      obtain ⟨k, v⟩ := kv
      simp [noRefKey, ih, List.forall_mem_cons, and_assoc]

theorem noRefKey_arr (l : List Json) :
    noRefKey (Json.arr l) = true ↔ ∀ x ∈ l, noRefKey x = true := by
  induction l with
  | nil => simp [noRefKey]
  | cons x rest ih =>
      simp [noRefKey, ih, List.forall_mem_cons]

theorem lookupField_none_of_keys (l : List (String × Json)) (k : String)
    (h : ∀ kv ∈ l, ¬ kv.1 = k) : lookupField l k = none := by
  induction l with
  | nil => rfl
  | cons kv rest ih =>
      obtain ⟨k0, v0⟩ := kv
      rw [lookupField, if_neg (h (k0, v0) (List.mem_cons_self _ _)),
        ih (fun kv hm => h kv (List.mem_cons_of_mem _ hm))]

theorem lookupField_mem (l : List (String × Json)) (k : String) (v : Json)
    (h : lookupField l k = some v) : (k, v) ∈ l := by
  induction l with
  | nil => cases h
  | cons kv rest ih =>
      obtain ⟨k0, v0⟩ := kv
      rw [lookupField] at h
      by_cases hk : k0 = k
      · rw [if_pos hk] at h
        injection h with h
        subst hk; subst h
        exact List.mem_cons_self _ _
      · rw [if_neg hk] at h
        exact List.mem_cons_of_mem _ (ih h)

theorem truthyField_obj_none (fields : List (String × Json))
    (h : ∀ kv ∈ fields, ¬ kv.1 = "$ref") :
    truthyField (Json.obj fields) "$ref" = none := by
  unfold truthyField
  rw [show jsGet (Json.obj fields) "$ref" = lookupField fields "$ref" from rfl,
    lookupField_none_of_keys _ _ h]

theorem noRefKey_no_refField (s : Json) (h : noRefKey s = true) :
    truthyField s "$ref" = none := by
  cases s with
  | obj l => exact truthyField_obj_none l (fun kv hm => ((noRefKey_obj l).mp h kv hm).1)
  | null => rfl
  | bool b => rfl
  | num n => rfl
  | str st => rfl
  | arr xs => rfl

theorem mem_putField (l : List (String × Json)) (k : String) (v : Json)
    (kv : String × Json) (h : kv ∈ putField l k v) : kv = (k, v) ∨ kv ∈ l := by
  induction l with
  | nil =>
      rw [putField] at h
      rcases List.mem_cons.mp h with h' | h'
      · exact Or.inl h'
      · cases h'
  | cons kv0 rest ih =>
      obtain ⟨k0, v0⟩ := kv0
      rw [putField] at h
      by_cases hk : k0 = k
      · rw [if_pos hk] at h
        rcases List.mem_cons.mp h with h' | h'
        · exact Or.inl h'
        · exact Or.inr (List.mem_cons_of_mem _ h')
      · rw [if_neg hk] at h
        rcases List.mem_cons.mp h with h' | h'
        · exact Or.inr (h' ▸ List.mem_cons_self _ _)
        · rcases ih h' with h'' | h''
          · exact Or.inl h''
          · exact Or.inr (List.mem_cons_of_mem _ h'')

theorem mem_putField_nodup (l : List (String × Json)) (k : String) (v : Json)
    (kv : String × Json) (hnd : (l.map Prod.fst).Nodup) (h : kv ∈ putField l k v) :
    kv = (k, v) ∨ (kv ∈ l ∧ ¬ kv.1 = k) := by
  induction l with
  | nil =>
      rw [putField] at h
      rcases List.mem_cons.mp h with h' | h'
      · exact Or.inl h'
      · cases h'
  | cons kv0 rest ih =>
      obtain ⟨k0, v0⟩ := kv0
      rw [List.map_cons, List.nodup_cons] at hnd
      rw [putField] at h
      by_cases hk : k0 = k
      · subst hk
        rw [if_pos rfl] at h
        rcases List.mem_cons.mp h with h' | h'
        · exact Or.inl h'
        · refine Or.inr ⟨List.mem_cons_of_mem _ h', fun he => hnd.1 ?_⟩
          rw [← he]
          exact List.mem_map.mpr ⟨kv, h', rfl⟩
      · rw [if_neg hk] at h
        rcases List.mem_cons.mp h with h' | h'
        · exact Or.inr ⟨h' ▸ List.mem_cons_self _ _, by rw [h']; exact hk⟩
        · rcases ih hnd.2 h' with h'' | h''
          · exact Or.inl h''
          · exact Or.inr ⟨List.mem_cons_of_mem _ h''.1, h''.2⟩

theorem truthyField_some_jsGet (j : Json) (k : String) (v : Json)
    (h : truthyField j k = some v) : jsGet j k = some v := by
  unfold truthyField at h
  rcases hg : jsGet j k with _ | w <;> rw [hg] at h <;> dsimp only at h
  · cases h
  · by_cases ht : truthy w = true
    · rw [if_pos ht] at h
      exact h
    · rw [if_neg ht] at h
      cases h

theorem jsGet_type_some_obj (s : Json) (v : Json) (h : jsGet s "type" = some v) :
    ∃ l, s = Json.obj l := by
  cases s with
  | obj l => exact ⟨l, rfl⟩
  | null => cases h
  | bool b => cases h
  | num n => cases h
  | str st =>
      have he : jsGet (Json.str st) "type" = none := rfl
      rw [he] at h; cases h
  | arr xs =>
      have he : jsGet (Json.arr xs) "type" = none := rfl
      rw [he] at h; cases h

/-- Every `Object.entries` entry of a `$ref`-free value has a non-`$ref`
key and a `$ref`-free value. -/
theorem entries_noRef (props : Json) (hp : noRefKey props = true) :
    ∀ kv ∈ jsEntries props, ¬ kv.1 = "$ref" ∧ noRefKey kv.2 = true := by
  cases props with
  | obj l => exact fun kv hm => (noRefKey_obj l).mp hp kv hm
  | arr xs =>
      intro kv hm
      rcases mem_indexedFields xs 0 kv hm with ⟨⟨j, hj⟩, hmem⟩
      exact ⟨by rw [hj]; exact natStr_ne_ref j, (noRefKey_arr xs).mp hp kv.2 hmem⟩
  | str st =>
      intro kv hm
      rcases mem_indexedFields _ 0 kv hm with ⟨⟨j, hj⟩, hmem⟩
      refine ⟨by rw [hj]; exact natStr_ne_ref j, ?_⟩
      rcases List.mem_map.mp hmem with ⟨ch, -, hch⟩
      rw [← hch]
      simp [noRefKey]
  | null => intro kv hm; cases hm
  | bool b => intro kv hm; cases hm
  | num nn => intro kv hm; cases hm

/-- Resolving an entries list whose values stay `$ref`-free under the
recursion yields `$ref`-free output entries with the same keys. -/
theorem fieldsFold_noRef
    (rec : Json → List String → List String →
      Option (Except String (Json × List String × List String)))
    (es : List (String × Json))
    (hes : ∀ kv ∈ es, ¬ kv.1 = "$ref" ∧
      ∀ (deps circ : List String) (out : Json) (d c : List String),
        rec kv.2 deps circ = some (Except.ok (out, d, c)) → noRefKey out = true) :
    ∀ (deps circ : List String) (fs : List (String × Json)) (d c : List String),
      fieldsFold rec es deps circ = some (Except.ok (fs, d, c)) →
      ∀ kv ∈ fs, ¬ kv.1 = "$ref" ∧ noRefKey kv.2 = true := by
  induction es with
  | nil =>
      intro deps circ fs d c h kv hm
      rw [fieldsFold] at h
      simp only [Option.some.injEq, Except.ok.injEq, Prod.mk.injEq] at h
      rw [← h.1] at hm
      cases hm
  | cons kv0 rest ih =>
      intro deps circ fs d c h kv hm
      obtain ⟨k0, v0⟩ := kv0
      rw [fieldsFold] at h
      rcases hr : rec v0 deps circ with _ | er <;> rw [hr] at h <;> try dsimp only at h
      · cases h
      · rcases er with e | ⟨v', d', c'⟩
        · simp at h
        · dsimp only at h
          rcases hf : fieldsFold rec rest d' c' with _ | ef <;> rw [hf] at h <;>
            try dsimp only at h
          · cases h
          · rcases ef with e | ⟨fs', d'', c''⟩
            · simp at h
            · simp only [Option.some.injEq, Except.ok.injEq, Prod.mk.injEq] at h
              obtain ⟨hfs, -, -⟩ := h
              rw [← hfs] at hm
              rcases List.mem_cons.mp hm with h' | h'
              · subst h'
                exact ⟨(hes (k0, v0) (List.mem_cons_self _ _)).1,
                  (hes (k0, v0) (List.mem_cons_self _ _)).2 deps circ v' d' c' hr⟩
              · exact ih (fun kv hm2 => hes kv (List.mem_cons_of_mem _ hm2))
                  d' c' fs' d'' c'' hf kv h'

/-- A `$ref`-free subtree stays `$ref`-free under the expander. -/
theorem resolveRec_preserves_noRef (doc : Json) :
    ∀ (fuel : Nat) (s : Json) (cd md : Nat) (path deps circ : List String)
      (out : Json) (d c : List String),
      noRefKey s = true →
      resolveSchemaRecursive doc fuel s cd md path deps circ =
        some (Except.ok (out, d, c)) →
      noRefKey out = true := by
  intro fuel
  induction fuel with
  | zero => intro s cd md path deps circ out d c hn h; cases h
  | succ n ih =>
      intro s cd md path deps circ out d c hnr h
      rw [resolveSchemaRecursive] at h
      by_cases hnull : isNull s = true
      · rw [if_pos hnull] at h; simp at h
      · rw [if_neg hnull] at h
        rw [noRefKey_no_refField s hnr] at h
        dsimp only at h
        split at h
        · rename_i x1 x2 props' heq1 heq2
          rcases jsGet_type_some_obj s _ heq1 with ⟨fields, hfields⟩
          subst hfields
          have hpmem : ("properties", props') ∈ fields :=
            lookupField_mem _ _ _ (truthyField_some_jsGet _ _ _ heq2)
          have hpn : noRefKey props' = true :=
            ((noRefKey_obj fields).mp hnr ("properties", props') hpmem).2
          rcases hf : fieldsFold
              (fun v d c => resolveSchemaRecursive doc n v cd md path d c)
              (jsEntries props') deps circ with _ | ef <;> rw [hf] at h <;>
            try dsimp only at h
          · cases h
          · rcases ef with e | ⟨nf, d', c'⟩
            · simp at h
            · simp only [Option.some.injEq, Except.ok.injEq, Prod.mk.injEq] at h
              obtain ⟨hout, -, -⟩ := h
              have hfsgood : ∀ kv ∈ nf, ¬ kv.1 = "$ref" ∧ noRefKey kv.2 = true := by
                refine fieldsFold_noRef _ _
                  (fun kv hm => ⟨(entries_noRef props' hpn kv hm).1, ?_⟩)
                  deps circ nf d' c' hf
                intro deps2 circ2 out2 d2 c2 hrec2
                exact ih kv.2 cd md path deps2 circ2 out2 d2 c2
                  (entries_noRef props' hpn kv hm).2 hrec2
              rw [← hout]
              show noRefKey (Json.obj (putField fields "properties" (Json.obj nf))) = true
              rw [noRefKey_obj]
              intro kv hm
              rcases mem_putField fields "properties" (Json.obj nf) kv hm with h' | h'
              · rw [h']
                exact ⟨(show ¬ "properties" = "$ref" by decide),
                  (noRefKey_obj nf).mpr hfsgood⟩
              · exact (noRefKey_obj fields).mp hnr kv h'
        · split at h
          · rename_i x1 x2 hcontra x3 x4 items' heq1 heq2
            rcases jsGet_type_some_obj s _ heq1 with ⟨fields, hfields⟩
            subst hfields
            have himem : ("items", items') ∈ fields :=
              lookupField_mem _ _ _ (truthyField_some_jsGet _ _ _ heq2)
            have hin : noRefKey items' = true :=
              ((noRefKey_obj fields).mp hnr ("items", items') himem).2
            rcases hri : resolveSchemaRecursive doc n items' cd md path deps circ
                with _ | ires <;> rw [hri] at h <;> try dsimp only at h
            · cases h
            · rcases ires with e | ⟨iout, d', c'⟩
              · simp at h
              · simp only [Option.some.injEq, Except.ok.injEq, Prod.mk.injEq] at h
                obtain ⟨hout, -, -⟩ := h
                have hio : noRefKey iout = true :=
                  ih items' cd md path deps circ iout d' c' hin hri
                rw [← hout]
                show noRefKey (Json.obj (putField fields "items" iout)) = true
                rw [noRefKey_obj]
                intro kv hm
                rcases mem_putField fields "items" iout kv hm with h' | h'
                · rw [h']
                  exact ⟨(show ¬ "items" = "$ref" by decide), hio⟩
                · exact (noRefKey_obj fields).mp hnr kv h'
          · simp only [Option.some.injEq, Except.ok.injEq, Prod.mk.injEq] at h
            rw [← h.1]
            exact hnr

/-- Under the `Expands` hypothesis, the expander's output is free of
`$ref` keys. -/
theorem expands_noRef (doc : Json) (md : Nat) :
    ∀ (s : Json) (path : List String) (depth : Nat), Expands doc md s path depth →
    ∀ (fuel : Nat) (deps circ : List String) (out : Json) (d c : List String),
      resolveSchemaRecursive doc fuel s depth md path deps circ =
        some (Except.ok (out, d, c)) →
      noRefKey out = true := by
  intro s path depth hz
  induction hz with
  | ref s path depth r target hr hnull hd hp ht hrec IH =>
      intro fuel deps circ out d c h
      obtain _ | n := fuel
      · cases h
      · rw [resolveSchemaRecursive] at h
        rw [if_neg (by rw [hnull]; exact Bool.false_ne_true)] at h
        rw [hr] at h
        dsimp only at h
        rw [if_neg (by omega : ¬ depth ≥ md)] at h
        rw [hp] at h
        simp only [Bool.false_eq_true, if_false] at h
        rw [ht] at h
        dsimp only at h
        exact IH n (deps ++ [extractSchemaName r]) circ out d c h
  | objProps fields props path depth htype hprops hkeys hnodup hothers hek hentries IH =>
      intro fuel deps circ out d c h
      obtain _ | n := fuel
      · cases h
      · rw [resolveSchemaRecursive] at h
        rw [if_neg (show ¬ isNull (Json.obj fields) = true from by simp [isNull])] at h
        rw [truthyField_obj_none fields hkeys] at h
        dsimp only at h
        split at h
        · rename_i x1 x2 props' heq1 heq2
          rw [hprops] at heq2
          injection heq2 with heq2
          subst heq2
          rcases hf : fieldsFold
              (fun v d c => resolveSchemaRecursive doc n v depth md path d c)
              (jsEntries props) deps circ with _ | ef <;> rw [hf] at h <;>
            try dsimp only at h
          · cases h
          · rcases ef with e | ⟨nf, d', c'⟩
            · simp at h
            · simp only [Option.some.injEq, Except.ok.injEq, Prod.mk.injEq] at h
              obtain ⟨hout, -, -⟩ := h
              have hfsgood : ∀ kv ∈ nf, ¬ kv.1 = "$ref" ∧ noRefKey kv.2 = true := by
                refine fieldsFold_noRef _ _
                  (fun kv hm => ⟨hek kv hm, ?_⟩) deps circ nf d' c' hf
                intro deps2 circ2 out2 d2 c2 hrec2
                exact IH kv hm n deps2 circ2 out2 d2 c2 hrec2
              rw [← hout]
              show noRefKey (Json.obj (putField fields "properties" (Json.obj nf))) = true
              rw [noRefKey_obj]
              intro kv hm
              rcases mem_putField_nodup fields "properties" (Json.obj nf) kv hnodup hm
                  with h' | ⟨h1, h2⟩
              · rw [h']
                exact ⟨(show ¬ "properties" = "$ref" by decide),
                  (noRefKey_obj nf).mpr hfsgood⟩
              · exact ⟨hkeys kv h1, hothers kv h1 h2⟩
        · rename_i x1 x2 hcontra
          exact (hcontra props htype hprops).elim
  | arrItems fields items path depth htype hitems hkeys hnodup hothers hrec IH =>
      intro fuel deps circ out d c h
      obtain _ | n := fuel
      · cases h
      · rw [resolveSchemaRecursive] at h
        rw [if_neg (show ¬ isNull (Json.obj fields) = true from by simp [isNull])] at h
        rw [truthyField_obj_none fields hkeys] at h
        dsimp only at h
        split at h
        · rename_i x1 x2 props' heq1 heq2
          rw [htype] at heq1
          simp at heq1
        · split at h
          · rename_i x1 x2 hcontra x3 x4 items' heq1 heq2
            rw [hitems] at heq2
            injection heq2 with heq2
            subst heq2
            rcases hri : resolveSchemaRecursive doc n items depth md path deps circ
                with _ | ires <;> rw [hri] at h <;> try dsimp only at h
            · cases h
            · rcases ires with e | ⟨iout, d', c'⟩
              · simp at h
              · simp only [Option.some.injEq, Except.ok.injEq, Prod.mk.injEq] at h
                obtain ⟨hout, -, -⟩ := h
                have hio : noRefKey iout = true := IH n deps circ iout d' c' hri
                rw [← hout]
                show noRefKey (Json.obj (putField fields "items" iout)) = true
                rw [noRefKey_obj]
                intro kv hm
                rcases mem_putField_nodup fields "items" iout kv hnodup hm
                    with h' | ⟨h1, h2⟩
                · rw [h']
                  exact ⟨(show ¬ "items" = "$ref" by decide), hio⟩
                · exact ⟨hkeys kv h1, hothers kv h1 h2⟩
          · rename_i x1 x2 hcontra x3 x4 hna2
            exact (hna2 items htype hitems).elim
  | plain s path depth hnr =>
      intro fuel deps circ out d c h
      exact resolveRec_preserves_noRef doc fuel s depth md path deps circ out d c hnr h

/-- C5, confirmed: when the reference graph reachable from the requested
root is acyclic with reference-hop depth within `maxDepth` and every
reference resolvable (the `Expands` hypothesis), a successful resolve
returns a schema with no node carrying a `$ref` key anywhere. -/
theorem C5_no_reference_nodes (doc : Json) (ref : String) (t : Json)
    (opts : ResolveOptions)
    (hrr : resolveRef doc ref = Except.ok t)
    (hz : Expands doc opts.maxDepth t [] 0) :
    ∀ (fuel : Nat) (r : ResolveResult) (c : Cache),
      resolveSchemaByRef doc fuel [] ref opts = some (r, c) → r.success = true →
      ∀ s, r.schema = some s → noRefKey s = true := by
  intro fuel r c h hs s hsch
  unfold resolveSchemaByRef at h
  simp only [mapGet] at h
  rw [hrr] at h
  dsimp only at h
  by_cases hnull : isNull t = true
  · rw [if_pos hnull] at h
    exfalso
    simp only [Option.some.injEq, Prod.mk.injEq] at h
    rw [← h.1] at hs
    simp [failResult] at hs
  · rw [if_neg hnull] at h
    rcases hu : truthyField t "$unresolved" with _ | u <;> rw [hu] at h <;>
      try dsimp only at h
    · rcases hrec : resolveSchemaRecursive doc fuel t 0 opts.maxDepth []
          [extractSchemaName ref] [] with _ | e2 <;> rw [hrec] at h <;>
        try dsimp only at h
      · cases h
      · rcases e2 with e2 | ⟨out, dl, cl⟩
        · exfalso
          try dsimp only at h
          simp only [Option.some.injEq, Prod.mk.injEq] at h
          rw [← h.1] at hs
          simp [failResult] at hs
        · try dsimp only at h
          simp only [Option.some.injEq, Prod.mk.injEq] at h
          rw [← h.1] at hsch
          injection hsch with hsch
          rw [← hsch]
          exact expands_noRef doc opts.maxDepth t [] 0 hz fuel
            [extractSchemaName ref] [] out dl cl hrec
    · exfalso
      simp only [Option.some.injEq, Prod.mk.injEq] at h
      rw [← h.1] at hs
      simp [failResult] at hs

/-- C5 witness: the acyclic chain `User → Profile → Settings` resolves to
a reference-free schema. -/
theorem C5_no_reference_nodes_witness :
    ∃ (r : ResolveResult) (c : Cache) (s : Json),
      resolveSchemaByRef chainDoc 10 [] "#/components/schemas/User" defaultOptions =
        some (r, c) ∧
      r.success = true ∧ r.schema = some s ∧ noRefKey s = true := by
  have hsettings : Expands chainDoc 10 (Json.obj [("type", Json.str "string")])
      ["Profile", "Settings"] 2 :=
    Expands.plain _ _ _ (by simp [noRefKey])
  have hprofile : Expands chainDoc 10
      (Json.obj [("type", Json.str "object"), ("properties", Json.obj [("s",
        Json.obj [("$ref", Json.str "#/components/schemas/Settings")])])])
      ["Profile"] 1 := by
    refine Expands.objProps _
      (Json.obj [("s", Json.obj [("$ref", Json.str "#/components/schemas/Settings")])])
      _ _ rfl rfl (by decide) (by decide) ?_ (by decide) ?_
    · intro kv hm hk
      simp only [List.mem_cons, List.not_mem_nil, or_false] at hm
      rcases hm with h | h
      · rw [h]
        simp [noRefKey]
      · rw [h] at hk
        exact absurd rfl hk
    · intro kv hm
      simp only [jsEntries, List.mem_cons, List.not_mem_nil, or_false] at hm
      rw [hm]
      exact Expands.ref _ _ _ "#/components/schemas/Settings" _ rfl rfl
        (by decide) (by decide) rfl hsettings
  have huser : Expands chainDoc 10
      (Json.obj [("type", Json.str "object"), ("properties", Json.obj [("p",
        Json.obj [("$ref", Json.str "#/components/schemas/Profile")])])])
      [] 0 := by
    refine Expands.objProps _
      (Json.obj [("p", Json.obj [("$ref", Json.str "#/components/schemas/Profile")])])
      _ _ rfl rfl (by decide) (by decide) ?_ (by decide) ?_
    · intro kv hm hk
      simp only [List.mem_cons, List.not_mem_nil, or_false] at hm
      rcases hm with h | h
      · rw [h]
        simp [noRefKey]
      · rw [h] at hk
        exact absurd rfl hk
    · intro kv hm
      simp only [jsEntries, List.mem_cons, List.not_mem_nil, or_false] at hm
      rw [hm]
      exact Expands.ref _ _ _ "#/components/schemas/Profile" _ rfl rfl
        (by decide) (by decide) rfl hprofile
  refine ⟨_, _, _, rfl, rfl, rfl, ?_⟩
  exact C5_no_reference_nodes chainDoc "#/components/schemas/User" _ defaultOptions
    rfl huser 10 _ _ rfl rfl _ rfl

/-- C7 witness: resolving `User` in the chain document at `maxDepth = 0`
keeps its reference to `Profile` unexpanded while still listing it. -/
theorem C7_depth_zero_witness :
    ∃ (r : ResolveResult) (c : Cache),
      resolveSchemaByRef chainDoc 10 [] "#/components/schemas/User" ⟨0, true⟩ =
        some (r, c) ∧
      r.success = true ∧
      r.schema = some (Json.obj [("type", Json.str "object"),
        ("properties", Json.obj [("p",
          Json.obj [("$ref", Json.str "#/components/schemas/Profile")])])]) ∧
      r.dependencies = ["User", "Profile"] ∧
      r.circularReferences = [] :=
  ⟨_, _, rfl,
    (C7_depth_zero chainDoc "#/components/schemas/User"
      (Json.obj [("type", Json.str "object"),
        ("properties", Json.obj [("p",
          Json.obj [("$ref", Json.str "#/components/schemas/Profile")])])])
      (Json.obj [("type", Json.str "object"),
        ("properties", Json.obj [("p",
          Json.obj [("$ref", Json.str "#/components/schemas/Profile")])])])
      ["Profile"]
      rfl rfl rfl
      (ZeroExpand.objz _
        (Json.obj [("p", Json.obj [("$ref", Json.str "#/components/schemas/Profile")])])
        [("p", Json.obj [("$ref", Json.str "#/components/schemas/Profile")])]
        ["Profile"] rfl rfl rfl
        (ZeroExpandFields.consz "p"
          (Json.obj [("$ref", Json.str "#/components/schemas/Profile")])
          (Json.obj [("$ref", Json.str "#/components/schemas/Profile")])
          ["Profile"] [] [] []
          (ZeroExpand.refz _ "#/components/schemas/Profile" rfl rfl)
          ZeroExpandFields.nilz))).1 10 _ _ true rfl⟩

/- ### C9: termination.  The fuel parameter is an artefact of the
embedding; the source recursion is bounded by the depth check and the
path-stack cycle check, which here shows up as: for every input some
finite fuel makes the interpreter return (`some`), i.e. the recursion
tree is finite. -/

theorem fieldsFold_mono
    (rec1 rec2 : Json → List String → List String →
      Option (Except String (Json × List String × List String)))
    (h12 : ∀ v d c out, rec1 v d c = some out → rec2 v d c = some out) :
    ∀ (es : List (String × Json)) (deps circ : List String) out,
      fieldsFold rec1 es deps circ = some out →
      fieldsFold rec2 es deps circ = some out := by
  intro es
  induction es with
  | nil => intro deps circ out h; exact h
  | cons kv0 rest ih =>
      intro deps circ out h
      obtain ⟨k0, v0⟩ := kv0
      rw [fieldsFold] at h ⊢
      rcases hr1 : rec1 v0 deps circ with _ | er
      · rw [hr1] at h; cases h
      · rw [hr1] at h
        rw [h12 v0 deps circ er hr1]
        rcases er with e | ⟨v', d', c'⟩
        · dsimp only at h ⊢; exact h
        · dsimp only at h ⊢
          rcases hf1 : fieldsFold rec1 rest d' c' with _ | ef
          · rw [hf1] at h; cases h
          · rw [hf1] at h
            rw [ih d' c' ef hf1]
            rcases ef with e2 | ⟨fs, dd, cc⟩ <;> dsimp only at h ⊢ <;> exact h

/-- The fueled interpreter is monotone in fuel: a returned result is
stable under adding fuel. -/
theorem resolveRec_mono (doc : Json) :
    ∀ (fuel : Nat) (s : Json) (cd md : Nat) (path deps circ : List String)
      (out : Except String (Json × List String × List String)) (fuel' : Nat),
      fuel ≤ fuel' →
      resolveSchemaRecursive doc fuel s cd md path deps circ = some out →
      resolveSchemaRecursive doc fuel' s cd md path deps circ = some out := by
  intro fuel
  induction fuel with
  | zero => intro s cd md path deps circ out fuel' hle h; cases h
  | succ n ih =>
      intro s cd md path deps circ out fuel' hle h
      obtain _ | m := fuel'
      · exact absurd hle (by omega)
      · have hnm : n ≤ m := by omega
        rw [resolveSchemaRecursive] at h ⊢
        by_cases hnull : isNull s = true
        · rw [if_pos hnull] at h ⊢; exact h
        · rw [if_neg hnull] at h ⊢
          rcases hr : truthyField s "$ref" with _ | v <;> rw [hr] at h
          · dsimp only at h ⊢
            split at h
            · rename_i x1 x2 props heq1 heq2
              rcases hf : fieldsFold
                  (fun v d c => resolveSchemaRecursive doc n v cd md path d c)
                  (jsEntries props) deps circ with _ | ef
              · rw [hf] at h; cases h
              · rw [hf] at h
                rw [fieldsFold_mono _ _
                  (fun v d c o hh => ih v cd md path d c o m hnm hh)
                  (jsEntries props) deps circ ef hf]
                rcases ef with e | ⟨nf, dd, cc⟩ <;> dsimp only at h ⊢ <;> exact h
            · split at h
              · rename_i x1 x2 hcontra x3 x4 items heq1 heq2
                rcases hi : resolveSchemaRecursive doc n items cd md path deps circ
                    with _ | ei
                · rw [hi] at h; cases h
                · rw [hi] at h
                  rw [ih items cd md path deps circ ei m hnm hi]
                  rcases ei with e | ⟨it, dd, cc⟩ <;> dsimp only at h ⊢ <;> exact h
              · exact h
          · rcases v with _ | b | nn | rstr | xs | fs <;> dsimp only at h ⊢
            · exact h
            · exact h
            · exact h
            · by_cases hd : cd ≥ md
              · rw [if_pos hd] at h ⊢; exact h
              · rw [if_neg hd] at h ⊢
                by_cases hp : path.contains (extractSchemaName rstr) = true
                · rw [if_pos hp] at h ⊢; exact h
                · rw [if_neg hp] at h ⊢
                  rcases hrr : resolveRef doc rstr with e | target <;> rw [hrr] at h
                  · exact h
                  · dsimp only at h ⊢
                    exact ih target (cd + 1) md (path ++ [extractSchemaName rstr])
                      (deps ++ [extractSchemaName rstr]) circ out m hnm h
            · exact h
            · exact h

/-- The interpreter on a node with no truthy `$ref`, no object-properties
shape and no array-items shape returns the node unchanged with one unit
of fuel. -/
theorem resolveRec_plain (doc : Json) (s : Json) (cd md : Nat)
    (path deps circ : List String)
    (hnull : isNull s = false)
    (hr : truthyField s "$ref" = none)
    (hno : ∀ props, ¬ (jsGet s "type" = some (Json.str "object") ∧
      truthyField s "properties" = some props))
    (hna : ∀ items, ¬ (jsGet s "type" = some (Json.str "array") ∧
      truthyField s "items" = some items)) :
    resolveSchemaRecursive doc 1 s cd md path deps circ =
      some (Except.ok (s, deps, circ)) := by
  rw [resolveSchemaRecursive,
    if_neg (show ¬ isNull s = true by rw [hnull]; exact Bool.false_ne_true), hr]
  dsimp only
  split
  · rename_i y1 y2 props heq1 heq2
    exact ((hno props) ⟨heq1, heq2⟩).elim
  · split
    · rename_i y1 y2 hcontra y3 y4 items heq1 heq2
      exact ((hna items) ⟨heq1, heq2⟩).elim
    · rfl

/-- A JS string scalar is returned unchanged with one unit of fuel. -/
theorem resolveRec_str (doc : Json) (y : String) (cd md : Nat)
    (path d c : List String) :
    resolveSchemaRecursive doc 1 (Json.str y) cd md path d c =
      some (Except.ok (Json.str y, d, c)) := rfl

theorem sizeOf_val_lt_obj (l : List (String × Json)) (k : String) (v : Json)
    (h : (k, v) ∈ l) : sizeOf v < sizeOf (Json.obj l) := by
  have h1 := List.sizeOf_lt_of_mem h
  have h2 : sizeOf (k, v) = 1 + sizeOf k + sizeOf v := rfl
  have h3 : sizeOf (Json.obj l) = 1 + sizeOf l := by simp
  omega

theorem sizeOf_elem_lt_arr (xs : List Json) (x : Json) (h : x ∈ xs) :
    sizeOf x < sizeOf (Json.arr xs) := by
  have h1 := List.sizeOf_lt_of_mem h
  have h3 : sizeOf (Json.arr xs) = 1 + sizeOf xs := by simp
  omega

/-- If each entry value is resolvable with some fuel, the whole entries
fold is resolvable with some (common) fuel. -/
theorem fieldsFold_total (doc : Json) (cd md : Nat) (path : List String) :
    ∀ (es : List (String × Json)),
      (∀ kv ∈ es, ∀ (d c : List String), ∃ fuel out,
        resolveSchemaRecursive doc fuel kv.2 cd md path d c = some out) →
      ∀ (deps circ : List String), ∃ fuel out,
        fieldsFold (fun v d c => resolveSchemaRecursive doc fuel v cd md path d c)
          es deps circ = some out := by
  intro es
  induction es with
  | nil => intro _ deps circ; exact ⟨1, Except.ok ([], deps, circ), rfl⟩
  | cons kv0 rest ih =>
      intro hes deps circ
      obtain ⟨k0, v0⟩ := kv0
      rcases hes (k0, v0) (List.mem_cons_self _ _) deps circ with ⟨f1, out1, h1⟩
      rcases out1 with e | ⟨v', d', c'⟩
      · refine ⟨f1, Except.error e, ?_⟩
        rw [fieldsFold]
        try dsimp only
        rw [h1]
      · rcases ih (fun kv hm d c => hes kv (List.mem_cons_of_mem _ hm) d c) d' c'
            with ⟨f2, out2, h2⟩
        have hm1 : resolveSchemaRecursive doc (max f1 f2) v0 cd md path deps circ =
            some (Except.ok (v', d', c')) :=
          resolveRec_mono doc f1 v0 cd md path deps circ _ (max f1 f2)
            (Nat.le_max_left _ _) h1
        have hm2 : fieldsFold
            (fun v d c => resolveSchemaRecursive doc (max f1 f2) v cd md path d c)
            rest d' c' = some out2 :=
          fieldsFold_mono _ _
            (fun v d c o hh => resolveRec_mono doc f2 v cd md path d c o (max f1 f2)
              (Nat.le_max_right _ _) hh) rest d' c' out2 h2
        rcases out2 with e2 | ⟨fs, dd, cc⟩
        · refine ⟨max f1 f2, Except.error e2, ?_⟩
          rw [fieldsFold]
          try dsimp only
          rw [hm1]
          try dsimp only
          rw [hm2]
        · refine ⟨max f1 f2, Except.ok ((k0, v') :: fs, dd, cc), ?_⟩
          rw [fieldsFold]
          try dsimp only
          rw [hm1]
          try dsimp only
          rw [hm2]

/-- Termination of the expander on every input: some finite fuel makes
the interpreter return.  The recursion is bounded exactly as the source
is: reference hops by the `currentDepth >= maxDepth` check, everything
else by structural descent into `properties` / `items`. -/
theorem resolveRec_total (doc : Json) (md cd : Nat) (s : Json)
    (path deps circ : List String) :
    ∃ fuel out,
      resolveSchemaRecursive doc fuel s cd md path deps circ = some out := by
  by_cases hnull : isNull s = true
  · exact ⟨1, Except.error "TypeError: Cannot read properties of null",
      by rw [resolveSchemaRecursive, if_pos hnull]⟩
  · have hnull' : isNull s = false := by simpa using hnull
    rcases hr : truthyField s "$ref" with _ | v
    · by_cases hobj : ∃ props, jsGet s "type" = some (Json.str "object") ∧
          truthyField s "properties" = some props
      · obtain ⟨props, ht, hp⟩ := hobj
        obtain ⟨fields, rfl⟩ := jsGet_type_some_obj s _ ht
        have hpmem : ("properties", props) ∈ fields :=
          lookupField_mem _ _ _ (truthyField_some_jsGet _ _ _ hp)
        have hps : sizeOf props < sizeOf (Json.obj fields) :=
          sizeOf_val_lt_obj fields _ _ hpmem
        have hes : ∀ kv ∈ jsEntries props, ∀ (d c : List String), ∃ fuel out,
            resolveSchemaRecursive doc fuel kv.2 cd md path d c = some out := by
          rcases props with _ | b | nn | y | xs | l
          · intro kv hm; simp [jsEntries] at hm
          · intro kv hm; simp [jsEntries] at hm
          · intro kv hm; simp [jsEntries] at hm
          · intro kv hm d c
            simp only [jsEntries] at hm
            rcases mem_indexedFields _ 0 kv hm with ⟨⟨j, hj⟩, hmem⟩
            rcases List.mem_map.mp hmem with ⟨ch, -, hch⟩
            exact ⟨1, Except.ok (kv.2, d, c),
              by rw [← hch]; exact resolveRec_str doc _ cd md path d c⟩
          · intro kv hm d c
            simp only [jsEntries] at hm
            rcases mem_indexedFields _ 0 kv hm with ⟨⟨j, hj⟩, hmem⟩
            have hsz : sizeOf kv.2 < sizeOf (Json.obj fields) := by
              have h1 := sizeOf_elem_lt_arr xs kv.2 hmem
              omega
            exact resolveRec_total doc md cd kv.2 path d c
          · intro kv hm d c
            simp only [jsEntries] at hm
            have hsz : sizeOf kv.2 < sizeOf (Json.obj fields) := by
              have h1 := sizeOf_val_lt_obj l kv.1 kv.2 hm
              omega
            exact resolveRec_total doc md cd kv.2 path d c
        rcases fieldsFold_total doc cd md path (jsEntries props) hes deps circ
            with ⟨fF, outF, hF⟩
        rcases outF with e | ⟨nf, dd, cc⟩
        · refine ⟨fF + 1, Except.error e, ?_⟩
          rw [resolveSchemaRecursive,
            if_neg (show ¬ isNull (Json.obj fields) = true by
              rw [hnull']; exact Bool.false_ne_true), hr]
          dsimp only
          split
          · rename_i y1 y2 props2 heq1 heq2
            rw [hp] at heq2
            injection heq2 with heq2
            subst heq2
            rw [hF]
          · rename_i y1 y2 hcontra
            exact (hcontra props ht hp).elim
        · refine ⟨fF + 1,
            Except.ok (setFieldJs (Json.obj fields) "properties" (Json.obj nf), dd, cc),
            ?_⟩
          rw [resolveSchemaRecursive,
            if_neg (show ¬ isNull (Json.obj fields) = true by
              rw [hnull']; exact Bool.false_ne_true), hr]
          dsimp only
          split
          · rename_i y1 y2 props2 heq1 heq2
            rw [hp] at heq2
            injection heq2 with heq2
            subst heq2
            rw [hF]
          · rename_i y1 y2 hcontra
            exact (hcontra props ht hp).elim
      · by_cases harr : ∃ items, jsGet s "type" = some (Json.str "array") ∧
            truthyField s "items" = some items
        · obtain ⟨items, ht, hp⟩ := harr
          obtain ⟨fields, rfl⟩ := jsGet_type_some_obj s _ ht
          have hmem : ("items", items) ∈ fields :=
            lookupField_mem _ _ _ (truthyField_some_jsGet _ _ _ hp)
          have hsz : sizeOf items < sizeOf (Json.obj fields) :=
            sizeOf_val_lt_obj fields _ _ hmem
          rcases resolveRec_total doc md cd items path deps circ with ⟨fI, outI, hI⟩
          rcases outI with e | ⟨it, dd, cc⟩
          · refine ⟨fI + 1, Except.error e, ?_⟩
            rw [resolveSchemaRecursive,
              if_neg (show ¬ isNull (Json.obj fields) = true by
                rw [hnull']; exact Bool.false_ne_true), hr]
            dsimp only
            split
            · rename_i y1 y2 props2 heq1 heq2
              exact (hobj ⟨props2, heq1, heq2⟩).elim
            · split
              · rename_i y1 y2 hcontra y3 y4 items2 heq1 heq2
                rw [hp] at heq2
                injection heq2 with heq2
                subst heq2
                rw [hI]
              · rename_i y1 y2 hcontra y3 y4 hc2
                exact (hc2 items ht hp).elim
          · refine ⟨fI + 1,
              Except.ok (setFieldJs (Json.obj fields) "items" it, dd, cc), ?_⟩
            rw [resolveSchemaRecursive,
              if_neg (show ¬ isNull (Json.obj fields) = true by
                rw [hnull']; exact Bool.false_ne_true), hr]
            dsimp only
            split
            · rename_i y1 y2 props2 heq1 heq2
              exact (hobj ⟨props2, heq1, heq2⟩).elim
            · split
              · rename_i y1 y2 hcontra y3 y4 items2 heq1 heq2
                rw [hp] at heq2
                injection heq2 with heq2
                subst heq2
                rw [hI]
              · rename_i y1 y2 hcontra y3 y4 hc2
                exact (hc2 items ht hp).elim
        · exact ⟨1, Except.ok (s, deps, circ),
            resolveRec_plain doc s cd md path deps circ hnull' hr
              (fun props hh => hobj ⟨props, hh⟩)
              (fun items hh => harr ⟨items, hh⟩)⟩
    · rcases v with _ | b | nn | rstr | xs | fs
      · exact ⟨1, Except.error "TypeError: ref.split is not a function",
          by rw [resolveSchemaRecursive,
            if_neg (show ¬ isNull s = true by rw [hnull']; exact Bool.false_ne_true), hr]⟩
      · exact ⟨1, Except.error "TypeError: ref.split is not a function",
          by rw [resolveSchemaRecursive,
            if_neg (show ¬ isNull s = true by rw [hnull']; exact Bool.false_ne_true), hr]⟩
      · exact ⟨1, Except.error "TypeError: ref.split is not a function",
          by rw [resolveSchemaRecursive,
            if_neg (show ¬ isNull s = true by rw [hnull']; exact Bool.false_ne_true), hr]⟩
      · by_cases hd : cd ≥ md
        · refine ⟨1, Except.ok (s, deps ++ [extractSchemaName rstr], circ), ?_⟩
          rw [resolveSchemaRecursive,
            if_neg (show ¬ isNull s = true by rw [hnull']; exact Bool.false_ne_true), hr]
          dsimp only
          rw [if_pos hd]
        · by_cases hpc : path.contains (extractSchemaName rstr) = true
          · refine ⟨1, Except.ok (s, deps ++ [extractSchemaName rstr],
              circ ++ [String.intercalate " -> " (path ++ [extractSchemaName rstr])]), ?_⟩
            rw [resolveSchemaRecursive,
              if_neg (show ¬ isNull s = true by rw [hnull']; exact Bool.false_ne_true),
              hr]
            dsimp only
            rw [if_neg hd, if_pos hpc]
          · rcases hrr : resolveRef doc rstr with e | target
            · refine ⟨1, Except.error e, ?_⟩
              rw [resolveSchemaRecursive,
                if_neg (show ¬ isNull s = true by rw [hnull']; exact Bool.false_ne_true),
                hr]
              dsimp only
              rw [if_neg hd, if_neg hpc, hrr]
            · have hlt : md - (cd + 1) < md - cd := by omega
              rcases resolveRec_total doc md (cd + 1) target
                  (path ++ [extractSchemaName rstr]) (deps ++ [extractSchemaName rstr])
                  circ with ⟨fT, outT, hT⟩
              refine ⟨fT + 1, outT, ?_⟩
              rw [resolveSchemaRecursive,
                if_neg (show ¬ isNull s = true by rw [hnull']; exact Bool.false_ne_true),
                hr]
              dsimp only
              rw [if_neg hd, if_neg hpc, hrr]
              dsimp only
              exact hT
      · exact ⟨1, Except.error "TypeError: ref.split is not a function",
          by rw [resolveSchemaRecursive,
            if_neg (show ¬ isNull s = true by rw [hnull']; exact Bool.false_ne_true), hr]⟩
      · exact ⟨1, Except.error "TypeError: ref.split is not a function",
          by rw [resolveSchemaRecursive,
            if_neg (show ¬ isNull s = true by rw [hnull']; exact Bool.false_ne_true), hr]⟩
termination_by (md - cd, sizeOf s)

theorem byRef_total (doc : Json) (cache : Cache) (ref : String)
    (opts : ResolveOptions) :
    ∃ (fuel : Nat) (res : ResolveResult × Cache),
      resolveSchemaByRef doc fuel cache ref opts = some res := by
  rcases hm : mapGet cache (cacheKey ref opts) with _ | r
  · rcases hrr : resolveRef doc ref with e | schema
    · exact ⟨1, _, by
        unfold resolveSchemaByRef; try dsimp only
        rw [hm]; try dsimp only
        rw [hrr]⟩
    · by_cases hnull : isNull schema = true
      · exact ⟨1, _, by
          unfold resolveSchemaByRef; try dsimp only
          rw [hm]; try dsimp only
          rw [hrr]; try dsimp only
          rw [if_pos hnull]⟩
      · rcases hu : truthyField schema "$unresolved" with _ | u
        · rcases resolveRec_total doc opts.maxDepth 0 schema []
              [extractSchemaName ref] [] with ⟨f, out, hout⟩
          rcases out with e2 | ⟨resolved, dl, cl⟩
          · exact ⟨f, _, by
              unfold resolveSchemaByRef; try dsimp only
              rw [hm]; try dsimp only
              rw [hrr]; try dsimp only
              rw [if_neg hnull, hu]; try dsimp only
              rw [hout]⟩
          · exact ⟨f, _, by
              unfold resolveSchemaByRef; try dsimp only
              rw [hm]; try dsimp only
              rw [hrr]; try dsimp only
              rw [if_neg hnull, hu]; try dsimp only
              rw [hout]⟩
        · exact ⟨1, _, by
            unfold resolveSchemaByRef; try dsimp only
            rw [hm]; try dsimp only
            rw [hrr]; try dsimp only
            rw [if_neg hnull, hu]⟩
  · exact ⟨1, (r, cache), by
      unfold resolveSchemaByRef; try dsimp only
      rw [hm]⟩

theorem resolveSchema_total (doc : Json) (cache : Cache) (name : String)
    (opts : ResolveOptions) :
    ∃ (fuel : Nat) (res : ResolveResult × Cache),
      resolveSchema doc fuel cache name opts = some res := by
  rcases hm : mapGet cache (cacheKey name opts) with _ | r
  · rcases hs : mapGet (scanAllSchemas doc) name with _ | p
    · exact ⟨1, _, by
        unfold resolveSchema; try dsimp only
        rw [hm]; try dsimp only
        rw [hs]⟩
    · by_cases hp : p = ""
      · exact ⟨1, _, by
          unfold resolveSchema; try dsimp only
          rw [hm]; try dsimp only
          rw [hs]; try dsimp only
          rw [if_pos hp]⟩
      · rcases byRef_total doc cache ("#/" ++ p) opts with ⟨fuel, res, h⟩
        exact ⟨fuel, res, by
          unfold resolveSchema; try dsimp only
          rw [hm]; try dsimp only
          rw [hs]; try dsimp only
          rw [if_neg hp]
          exact h⟩
  · exact ⟨1, (r, cache), by
      unfold resolveSchema; try dsimp only
      rw [hm]⟩

/-- C9, confirmed: resolution terminates on every input.  For every
document, cache state, requested target (pointer or name) and options,
some finite fuel makes the interpreter return (`some`), i.e. the source
recursion tree is finite: reference hops are bounded by the
`currentDepth >= maxDepth` check, everything else descends structurally
into `properties` / `items`. -/
theorem C9_termination (doc : Json) (cache : Cache) (opts : ResolveOptions) :
    (∀ ref : String, ∃ (fuel : Nat) (res : ResolveResult × Cache),
      resolveSchemaByRef doc fuel cache ref opts = some res) ∧
    (∀ name : String, ∃ (fuel : Nat) (res : ResolveResult × Cache),
      resolveSchema doc fuel cache name opts = some res) :=
  ⟨fun ref => byRef_total doc cache ref opts,
   fun name => resolveSchema_total doc cache name opts⟩

end SwaggerMcp
